import Mathlib

/-!
# OpenEXR image-input plugin (`src/openexr.imageio/exrinput.cpp`)

A shallow embedding of `OpenEXRInput` and `StringMap`, followed by theorems
about the channel resolver, the level model, the read adapter and the
attribute translator.

Conventions of the embedding.

* C++ `int` is `Int`.  None of the properties below depends on 32-bit
  wrap-around, so no reduction modulo `2^32` is applied.
* Pointers into pixel memory are byte addresses, `Int`.
* A nullable pointer is an `Option`.
* `ASSERT` failure (abort) is the result `none`.
* The decoder library (`Imf::`) is the environment: what it answers for a file
  is the record `ExrFile`, and what it would throw during a read is an
  argument of the read functions.
-/

namespace OpenEXR

/-! ## Decoder-library constants (`ImfTileDescription.h`, `ImfEnvmap.h`) -/

/-- The value of `Imf::ONE_LEVEL`. -/
def ONE_LEVEL : Int := 0
/-- The value of `Imf::MIPMAP_LEVELS`. -/
def MIPMAP_LEVELS : Int := 1
/-- The value of `Imf::RIPMAP_LEVELS`. -/
def RIPMAP_LEVELS : Int := 2
/-- The value of `Imf::ROUND_DOWN`. -/
def ROUND_DOWN : Int := 0
/-- The value of `Imf::ROUND_UP`. -/
def ROUND_UP : Int := 1
/-- The value of `Imf::ENVMAP_LATLONG`. -/
def ENVMAP_LATLONG : Int := 0
/-- The value of `Imf::ENVMAP_CUBE`. -/
def ENVMAP_CUBE : Int := 1

/-! ## Header attributes -/

/-- A header attribute value.  The four payload types the plugin reads, the
two typed attributes it looks up by name, and every other attribute type,
which carries only its type name. -/
inductive Attribute where
  | string (v : String)
  | int (v : Int)
  | float (bits : Nat)
  | m44f (entries : List Nat)
  | envmap (v : Int)
  | compression (v : Int)
  | other (typeName : String)
deriving DecidableEq, Repr

/-- The result of `Imf::Attribute::typeName`. -/
def Attribute.typeName : Attribute → String
  | .string _ => "string"
  | .int _ => "int"
  | .float _ => "float"
  | .m44f _ => "M44f"
  | .envmap _ => "envmap"
  | .compression _ => "compression"
  | .other t => t

/-- The value of `Imath::Box2i`. -/
structure Box2i where
  minx : Int
  miny : Int
  maxx : Int
  maxy : Int
deriving DecidableEq, Repr

/-- The content of an `Imf::Header`: the data window, the channel names in
iteration order, and the attributes in iteration order. -/
structure Header where
  dataWindow : Box2i
  channels : List String
  attributes : List (String × Attribute)
deriving DecidableEq, Repr

/-- What the decoder library answers for one file name. -/
structure ExrFile where
  isOpenExrFile : Bool
  tiled : Bool
  openException : Option String
  header : Header
  tileXSize : Int
  tileYSize : Int
  levelMode : Int
  levelRoundingMode : Int
  numLevels : Int
  numXLevels : Int
  numYLevels : Int
deriving DecidableEq, Repr

/-- The lookup `Header::findTypedAttribute<T>(name)`, before the cast to `T`:
the attribute stored under `name`. -/
def Header.find (h : Header) (name : String) : Option Attribute :=
  (h.attributes.find? (fun p => p.1 == name)).map (fun p => p.2)

/-! ## FormatSpec -/

/-- A metadata parameter value held by the format spec. -/
inductive ParamValue where
  | str (v : String)
  | int (v : Int)
  | float (bits : Nat)
  | matrix (entries : List Nat)
deriving DecidableEq, Repr

/-- The pixel data formats named by the plugin. -/
inductive ParamBaseType where
  | PT_UNKNOWN
  | PT_HALF
deriving DecidableEq, Repr

/-- The fields of `ImageIOFormatSpec` the plugin reads or writes. -/
structure ImageIOFormatSpec where
  x : Int
  y : Int
  z : Int
  width : Int
  height : Int
  depth : Int
  full_width : Int
  full_height : Int
  full_depth : Int
  tile_width : Int
  tile_height : Int
  tile_depth : Int
  format : ParamBaseType
  nchannels : Int
  channelnames : List String
  alpha_channel : Int
  z_channel : Int
  extra_params : List (String × ParamValue)
deriving DecidableEq, Repr

/-- Modelled from the spec: the default constructor of `ImageIOFormatSpec`
(`imageio.h` is not among the sources).  No channels, no metadata, and the
designated alpha and z indices are -1 ("absent"). -/
def ImageIOFormatSpec.default : ImageIOFormatSpec :=
  { x := 0, y := 0, z := 0, width := 0, height := 0, depth := 0,
    full_width := 0, full_height := 0, full_depth := 0,
    tile_width := 0, tile_height := 0, tile_depth := 0,
    format := .PT_UNKNOWN, nchannels := 0, channelnames := [],
    alpha_channel := -1, z_channel := -1, extra_params := [] }

/-- Modelled from the spec: `ImageIOFormatSpec::add_parameter` (`imageio.h` is
not among the sources).  The spec holds an ordered list of metadata
parameters; a new one goes to the end. -/
def ImageIOFormatSpec.add_parameter (s : ImageIOFormatSpec) (name : String)
    (v : ParamValue) : ImageIOFormatSpec :=
  { s with extra_params := s.extra_params ++ [(name, v)] }

/-! ## The Reader -/

/-- The state of an `OpenEXRInput`, with the inherited `m_spec` and error
sink; `cerr` is the text this Reader has written to the standard error
stream. -/
structure Reader where
  m_spec : ImageIOFormatSpec
  m_errmessage : List String
  cerr : List String
  m_header : Option Header
  m_input_scanline : Option ExrFile
  m_input_tiled : Option ExrFile
  m_levelmode : Int
  m_roundingmode : Int
  m_subimage : Int
  m_nsubimages : Int
  m_topwidth : Int
  m_topheight : Int
  m_cubeface : Bool
  m_channelnames : List String
  m_userchannels : List Int
deriving DecidableEq, Repr

/-- The method `OpenEXRInput::init`. -/
def init (r : Reader) : Reader :=
  { r with m_header := none, m_input_scanline := none, m_input_tiled := none,
           m_subimage := -1 }

/-- The constructor `OpenEXRInput::OpenEXRInput`.  The vectors start empty and
the spec default-constructed; the scalar members `init` does not assign are
indeterminate and are given as arguments. -/
def construct (levelmode roundingmode nsubimages topwidth topheight : Int)
    (cubeface : Bool) : Reader :=
  init { m_spec := ImageIOFormatSpec.default, m_errmessage := [], cerr := [],
         m_header := none, m_input_scanline := none, m_input_tiled := none,
         m_levelmode := levelmode, m_roundingmode := roundingmode,
         m_subimage := 0, m_nsubimages := nsubimages,
         m_topwidth := topwidth, m_topheight := topheight,
         m_cubeface := cubeface, m_channelnames := [], m_userchannels := [] }

/-- The method `OpenEXRInput::current_subimage`. -/
def current_subimage (r : Reader) : Int := r.m_subimage

/-! ## Channel resolver -/

/-- The comparison `boost::algorithm::iequals`: equal length and equal
characters after upper-casing each one. -/
def iequals (a b : String) : Bool :=
  a.toList.map Char.toUpper == b.toList.map Char.toUpper

/-- The five locals `red, green, blue, alpha, zee` of `query_channels`. -/
structure ChanIdx where
  red : Int
  green : Int
  blue : Int
  alpha : Int
  zee : Int
deriving DecidableEq, Repr

/-- The body of the first loop of `query_channels`, without the bookkeeping of
`m_channelnames` and `nchannels`: the five tests on one channel name. -/
def classify (name : String) (c : Int) (s : ChanIdx) : ChanIdx :=
  let s := if iequals name "R" || iequals name "Red" then { s with red := c } else s
  let s := if iequals name "G" || iequals name "Green" then { s with green := c } else s
  let s := if iequals name "B" || iequals name "Blue" then { s with blue := c } else s
  if iequals name "A" || iequals name "Alpha" then { s with alpha := c }
  else if iequals name "Z" then { s with zee := c }
  else s

/-- The first loop of `query_channels`: from channel counter `c`, over the
remaining channel names; the state is `(m_channelnames, indices, nchannels)`. -/
def scanLoop : List String → Int → List String × ChanIdx × Int →
    List String × ChanIdx × Int
  | [], _, st => st
  | name :: rest, c, (names, s, n) =>
      scanLoop rest (c + 1) (names ++ [name], classify name c s, n + 1)

/-- The call `std::vector<int>::resize (n)`: truncate, or pad with zeros. -/
def resize (v : List Int) (n : Nat) : List Int :=
  v.take n ++ List.replicate (n - v.length) 0

/-- One of the five blocks `if (red >= 0) { push_back ("R"); m_userchannels[red] = nc++; }`;
the state is `(m_spec.channelnames, m_userchannels, nc)`. -/
def placeClass (i : Int) (canon : String) (st : List String × List Int × Int) :
    List String × List Int × Int :=
  if i ≥ 0 then (st.1 ++ [canon], st.2.1.set i.toNat st.2.2, st.2.2 + 1) else st

/-- The second loop of `query_channels`: every channel not chosen for a class
gets the next position, under its file name. -/
def restLoop (s : ChanIdx) : List String → Int → List String × List Int × Int →
    List String × List Int × Int
  | [], _, st => st
  | name :: rest, c, (cn, uc, nc) =>
      if s.red = c ∨ s.green = c ∨ s.blue = c ∨ s.alpha = c ∨ s.zee = c then
        restLoop s rest (c + 1) (cn, uc, nc)
      else
        restLoop s rest (c + 1) (cn ++ [name], uc.set c.toNat nc, nc + 1)

/-- The method `OpenEXRInput::query_channels`.  The result is `none` when the
closing `ASSERT` fails. -/
def query_channels (r : Reader) (channels : List String) : Option Reader :=
  let (names, s, n) :=
    scanLoop channels 0 (r.m_channelnames, ⟨-1, -1, -1, -1, -1⟩, 0)
  let uc := resize r.m_userchannels n.toNat
  let st := (r.m_spec.channelnames, uc, (0 : Int))
  let st := placeClass s.red "R" st
  let st := placeClass s.green "G" st
  let st := placeClass s.blue "B" st
  let st := placeClass s.alpha "A" st
  let st := placeClass s.zee "Z" st
  let (cn, uc, _) := restLoop s channels 0 st
  if (cn.length : Int) = n then
    some { r with m_spec := { r.m_spec with nchannels := n, channelnames := cn },
                  m_channelnames := names, m_userchannels := uc }
  else none

/-! ## Attribute translator -/

/-- The table filled by `StringMap::init`. -/
def StringMap.m_map : List (String × String) :=
  [ ("cameraTransform", "worldtocamera"),
    ("capDate", "datetime"),
    ("comments", "description"),
    ("owner", "copyright"),
    ("pixelAspectRatio", "pixelaspectratio"),
    ("wrapmodes", "wrapmodes"),
    ("channels", ""),
    ("compression", ""),
    ("dataWindow", ""),
    ("envmap", ""),
    ("tiledesc", ""),
    ("lineOrder", "") ]

/-- The global `exr_tag_to_ooio_std`, applied with `StringMap::operator[]`:
the table entry when there is one, the argument itself otherwise. -/
def exr_tag_to_ooio_std (s : String) : String :=
  match StringMap.m_map.lookup s with
  | some v => v
  | none => s

/-- The head of the attribute loop body of `open`: the key under which the
attribute `name` is emitted, or `none` when the loop skips it (`continue`). -/
def attributeKey (name : String) : Option String :=
  let oname := exr_tag_to_ooio_std name
  if oname.isEmpty then none
  else if oname == name then some ("openexr_" ++ oname)
  else some oname

/-- The tail of the attribute loop body of `open`: the typed lookups, for the
attribute `attrib` found under `name` by the iterator. -/
def attributeValue (h : Header) (name : String) (attrib : Attribute) : Option ParamValue :=
  let type := attrib.typeName
  match type == "string", h.find name with
  | true, some (.string v) => some (.str v)
  | _, _ =>
  match type == "int", h.find name with
  | true, some (.int v) => some (.int v)
  | _, _ =>
  match type == "float", h.find name with
  | true, some (.float v) => some (.float v)
  | _, _ =>
  match type == "M44f", h.find name with
  | true, some (.m44f v) => some (.matrix v)
  | _, _ => none

/-- One iteration of the attribute loop of `open`; the state is
`(m_spec, cerr)`. -/
def attributeStep (h : Header) (st : ImageIOFormatSpec × List String)
    (hit : String × Attribute) : ImageIOFormatSpec × List String :=
  match attributeKey hit.1 with
  | none => st
  | some oname =>
    match attributeValue h hit.1 hit.2 with
    | some v => (st.1.add_parameter oname v, st.2)
    | none =>
      (st.1, st.2 ++ ["  unknown attribute " ++ hit.2.typeName ++ " " ++ hit.1 ++ "\n"])

/-- The attribute loop of `open`, over the header in iteration order. -/
def attributeLoop (h : Header) (st : ImageIOFormatSpec × List String) :
    ImageIOFormatSpec × List String :=
  h.attributes.foldl (attributeStep h) st

/-- The `switch` of `open` over `Imf::Compression` (`ImfCompression.h`:
`NO_COMPRESSION = 0`, `RLE = 1`, `ZIPS = 2`, `ZIP = 3`, `PIZ = 4`,
`PXR24 = 5`, `B44 = 6`, `B44A = 7`). -/
def compressionName (v : Int) : Option String :=
  if v = 0 then some "none"
  else if v = 1 then some "rle"
  else if v = 2 then some "zip"
  else if v = 3 then some "zip"
  else if v = 4 then some "piz"
  else if v = 5 then some "pxr24"
  else if v = 6 then some "b44"
  else if v = 7 then some "b44a"
  else none

/-! ## Lifecycle -/

/-- Modelled from the spec: `ImageInput::error` (`imageio.h` is not among the
sources): the formatted message is appended to the error sink. -/
def error (r : Reader) (msg : String) : Reader :=
  { r with m_errmessage := r.m_errmessage ++ [msg] }

/-- The part of `OpenEXRInput::open` from the data window to `query_channels`
excluded: the geometry written to `m_spec` and the saved top-level size. -/
def openGeometry (r : Reader) (h : Header) (tiled : Bool) (file : ExrFile) : Reader :=
  let datawindow := h.dataWindow
  let width := datawindow.maxx - datawindow.minx + 1
  let height := datawindow.maxy - datawindow.miny + 1
  let depth : Int := 1
  { r with
    m_topwidth := width
    m_topheight := height
    m_spec := { r.m_spec with
      x := datawindow.minx, y := datawindow.miny, z := 0,
      width := width, height := height, depth := depth,
      full_width := width, full_height := height, full_depth := depth,
      tile_width := if tiled then file.tileXSize else 0,
      tile_height := if tiled then file.tileYSize else 0,
      tile_depth := 0,
      format := .PT_HALF } }

/-- The part of `OpenEXRInput::open` that reads the level description. -/
def openLevels (r : Reader) (tiled : Bool) (file : ExrFile) : Reader :=
  if tiled then
    { r with
      m_levelmode := file.levelMode
      m_roundingmode := file.levelRoundingMode
      m_nsubimages :=
        if file.levelMode = MIPMAP_LEVELS then file.numLevels
        else if file.levelMode = RIPMAP_LEVELS then max file.numXLevels file.numYLevels
        else 1 }
  else
    { r with m_levelmode := ONE_LEVEL, m_nsubimages := 1 }

/-- The part of `OpenEXRInput::open` that reads the `envmap` attribute. -/
def openEnvmap (r : Reader) (h : Header) (tiled : Bool) : Reader :=
  match h.find "envmap" with
  | some (.envmap v) =>
    let cubeface := decide (v = ENVMAP_CUBE)
    let spec := r.m_spec.add_parameter "textureformat"
      (.str (if cubeface then "CubeFace Environment" else "LatLong Environment"))
    { r with m_cubeface := cubeface, m_spec := spec.add_parameter "up" (.str "y") }
  | _ =>
    if tiled then
      { r with m_cubeface := false,
               m_spec := r.m_spec.add_parameter "textureformat" (.str "Plain Texture") }
    else { r with m_cubeface := false }

/-- The part of `OpenEXRInput::open` that reads the `compression` attribute. -/
def openCompression (r : Reader) (h : Header) : Reader :=
  match h.find "compression" with
  | some (.compression v) =>
    match compressionName v with
    | some comp => { r with m_spec := r.m_spec.add_parameter "compression" (.str comp) }
    | none => r
  | _ => r

/-- The method `OpenEXRInput::open`.  The result is
`(return value, Reader, newspec)`, or `none` when an `ASSERT` fails. -/
def open_ (r : Reader) (file : ExrFile) (newspec : ImageIOFormatSpec) :
    Option (Bool × Reader × ImageIOFormatSpec) :=
  if !file.isOpenExrFile then some (false, r, newspec)
  else
    let tiled := file.tiled
    let r := { r with m_spec := ImageIOFormatSpec.default }
    match file.openException with
    | some e => some (false, error r ("OpenEXR exception: " ++ e), newspec)
    | none =>
      let r :=
        if tiled then { r with m_input_tiled := some file, m_header := some file.header }
        else { r with m_input_scanline := some file, m_header := some file.header }
      if r.m_input_scanline.isNone && r.m_input_tiled.isNone then
        some (false, error r "Unknown error opening EXR file", newspec)
      else
        match r.m_header with
        | none => none
        | some h =>
          let r := openGeometry r h tiled file
          match query_channels r h.channels with
          | none => none
          | some r =>
            let r := openLevels r tiled file
            let r := openEnvmap r h tiled
            let r := openCompression r h
            let st := attributeLoop h (r.m_spec, r.cerr)
            let r := { r with m_spec := st.1, cerr := st.2, m_subimage := 0 }
            some (true, r, r.m_spec)

/-- The method `OpenEXRInput::close`. -/
def close (r : Reader) : Bool × Reader :=
  (true, init { r with m_subimage := -1 })

/-! ## Level model -/

/-- C++ `int` division, which truncates toward zero. -/
def cdiv (a b : Int) : Int := Int.tdiv a b

/-- One halving of one dimension inside the loop of `seek_subimage`;
`d & 1` is the low bit of `d`. -/
def halve (roundingmode d : Int) : Int :=
  if d > 1 then
    if d % 2 = 1 ∧ roundingmode = ROUND_UP then cdiv d 2 + 1 else cdiv d 2
  else d

/-- The loop `while (index--)` of `seek_subimage`, for a count of
iterations. -/
def mipLoop (roundingmode : Int) : Nat → Int × Int → Int × Int
  | 0, wh => wh
  | n + 1, wh => mipLoop roundingmode n (halve roundingmode wh.1, halve roundingmode wh.2)

/-- The method `OpenEXRInput::seek_subimage`.  The result is
`(return value, Reader, newspec)`, or `none` when `ASSERT(0)` is reached. -/
def seek_subimage (r : Reader) (index : Int) (newspec : ImageIOFormatSpec) :
    Option (Bool × Reader × ImageIOFormatSpec) :=
  if index < 0 ∨ index ≥ r.m_nsubimages then some (false, r, newspec)
  else
    let r := { r with m_subimage := index }
    if index = 0 ∧ r.m_levelmode = ONE_LEVEL then some (true, r, r.m_spec)
    else
      let wh : Option (Int × Int) :=
        if r.m_levelmode = MIPMAP_LEVELS then
          some (mipLoop r.m_roundingmode index.toNat (r.m_topwidth, r.m_topheight))
        else if r.m_levelmode = RIPMAP_LEVELS then some (r.m_topwidth, r.m_topheight)
        else none
      match wh with
      | none => none
      | some (w, h) =>
        let spec := { r.m_spec with
          width := w, height := h, full_width := w,
          full_height := if r.m_cubeface then w else h }
        some (true, { r with m_spec := spec }, spec)

/-! ## Read adapter -/

/-- The value of `Imf::Slice`, of pixel type `HALF`: base address and the two
strides. -/
structure Slice where
  base : Int
  xStride : Int
  yStride : Int
deriving DecidableEq, Repr

/-- The call `Imf::FrameBuffer::insert`: the frame buffer maps a channel name
to one slice, and a second insertion under a name replaces the first. -/
def FrameBuffer.insert (fb : List (String × Slice)) (name : String) (s : Slice) :
    List (String × Slice) :=
  fb.filter (fun p => p.1 != name) ++ [(name, s)]

/-- The three byte counts `channel_bytes()`, `pixel_bytes()` and
`scanline_bytes()` of `m_spec`; `imageio.h` is not among the sources, so
their values are arguments of the read functions. -/
structure SpecBytes where
  channel_bytes : Int
  pixel_bytes : Int
  scanline_bytes : Int
deriving DecidableEq, Repr

/-- The back-offset of both read functions:
`data - m_spec.x * pixel_bytes - (y + m_spec.y) * scanline_bytes`. -/
def virtualBase (spec : ImageIOFormatSpec) (b : SpecBytes) (y data : Int) : Int :=
  data - spec.x * b.pixel_bytes - (y + spec.y) * b.scanline_bytes

/-- The slice inserted for channel `c` by both read functions. -/
def channelSlice (b : SpecBytes) (buf c : Int) : Slice :=
  { base := buf + c * b.channel_bytes, xStride := b.pixel_bytes,
    yStride := b.scanline_bytes }

/-- The loop `for (c = 0; c < m_spec.nchannels; ++c) frameBuffer.insert (...)`
of both read functions, with `n` iterations left from channel `c`.  The
result is `none` when `channelnames[c]` is out of bounds. -/
def insertSlices (spec : ImageIOFormatSpec) (b : SpecBytes) (buf : Int) :
    Nat → Nat → List (String × Slice) → Option (List (String × Slice))
  | 0, _, fb => some fb
  | n + 1, c, fb =>
    match spec.channelnames[c]? with
    | none => none
    | some name =>
      insertSlices spec b buf n (c + 1) (FrameBuffer.insert fb name (channelSlice b buf c))

/-- What one call of `read_native_scanline` does: its return value, the
Reader afterwards, the frame buffer installed, and the two arguments of
`readPixels`. -/
structure ScanlineRead where
  result : Bool
  reader : Reader
  frameBuffer : List (String × Slice)
  scanLine1 : Int
  scanLine2 : Int
deriving DecidableEq, Repr

/-- The method `OpenEXRInput::read_native_scanline`; `thrown` is what the
decoder throws from `readPixels`, if anything.  The result is `none` when
the `ASSERT` fails or `channelnames` is indexed out of bounds. -/
def read_native_scanline (r : Reader) (b : SpecBytes) (y z data : Int)
    (thrown : Option String) : Option ScanlineRead :=
  match r.m_input_scanline with
  | none => none
  | some _ =>
    let buf := virtualBase r.m_spec b y data
    match insertSlices r.m_spec b buf r.m_spec.nchannels.toNat 0 [] with
    | none => none
    | some frameBuffer =>
      let y := y - r.m_spec.y
      match thrown with
      | some e =>
        some ⟨false, error r ("Filed OpenEXR read: " ++ e), frameBuffer, y, y⟩
      | none => some ⟨true, r, frameBuffer, y, y⟩

/-- What one call of `read_native_tile` does: its return value, the Reader
afterwards, the frame buffer installed, and the four arguments of
`readTile`. -/
structure TileRead where
  result : Bool
  reader : Reader
  frameBuffer : List (String × Slice)
  dx : Int
  dy : Int
  lx : Int
  ly : Int
deriving DecidableEq, Repr

/-- The method `OpenEXRInput::read_native_tile`; `thrown` is what the decoder
throws from `readTile`, if anything.  The result is `none` when the `ASSERT`
fails, `channelnames` is indexed out of bounds, or a tile dimension is zero
(division by zero). -/
def read_native_tile (r : Reader) (b : SpecBytes) (x y z data : Int)
    (thrown : Option String) : Option TileRead :=
  match r.m_input_tiled with
  | none => none
  | some _ =>
    let buf := virtualBase r.m_spec b y data
    match insertSlices r.m_spec b buf r.m_spec.nchannels.toNat 0 [] with
    | none => none
    | some frameBuffer =>
      let x := x - r.m_spec.x
      let y := y - r.m_spec.y
      if r.m_spec.tile_width = 0 ∨ r.m_spec.tile_height = 0 then none
      else
        let dx := cdiv x r.m_spec.tile_width
        let dy := cdiv y r.m_spec.tile_height
        match thrown with
        | some e =>
          some ⟨false, error r ("Filed OpenEXR read: " ++ e), frameBuffer, dx, dy,
                r.m_subimage, r.m_subimage⟩
        | none => some ⟨true, r, frameBuffer, dx, dy, r.m_subimage, r.m_subimage⟩

/-- Modelled from the spec: the decoder's addressing.  It stores the sample of
the pixel at decoder coordinates `(px, py)` of a channel at
`base + px * xStride + py * yStride` of that channel's slice. -/
def decoderAddress (s : Slice) (px py : Int) : Int :=
  s.base + px * s.xStride + py * s.yStride

/-! ## The channel resolver as the specification words it -/

/-- Specification, step 1: the classes in their fixed order, each with its
canonical name and the names that match it. -/
def Spec.classes : List (String × List String) :=
  [ ("R", ["R", "Red"]), ("G", ["G", "Green"]), ("B", ["B", "Blue"]),
    ("A", ["A", "Alpha"]), ("Z", ["Z"]) ]

/-- Specification, step 1: `name` matches one of the alternatives of a class,
ignoring case. -/
def Spec.matchesClass (alts : List String) (name : String) : Bool :=
  alts.any (fun a => iequals name a)

/-- Specification, tie-break: the file index of the last channel satisfying
`p`, if any ("the later one wins"). -/
def Spec.lastIndexOf (p : String → Bool) : List String → Option Nat
  | [] => none
  | name :: rest =>
    match Spec.lastIndexOf p rest with
    | some j => some (j + 1)
    | none => if p name then some 0 else none

/-- Specification, step 2: the classes that were found, in the fixed order
R, G, B, A, Z, each as (file index of the chosen channel, canonical name). -/
def Spec.chosen (channels : List String) : List (Nat × String) :=
  Spec.classes.filterMap (fun cls =>
    (Spec.lastIndexOf (Spec.matchesClass cls.2) channels).map (fun i => (i, cls.1)))

/-- Specification, step 3: the remaining channels in their original file
order, each as (file index, file name). -/
def Spec.rest (channels : List String) : List (Nat × String) :=
  channels.enum.filter (fun p => decide (p.1 ∉ (Spec.chosen channels).map Prod.fst))

/-- Specification, steps 2 and 3: the canonical output order. -/
def Spec.canonical (channels : List String) : List (Nat × String) :=
  Spec.chosen channels ++ Spec.rest channels

/-- Specification: the canonical `channelnames`. -/
def Spec.channelnames (channels : List String) : List String :=
  (Spec.canonical channels).map Prod.snd

/-- Specification, step 4: `user_index[i]` is the position of file channel `i`
in the canonical order. -/
def Spec.user_index (channels : List String) : List Int :=
  (List.range channels.length).map (fun i =>
    (((Spec.canonical channels).map Prod.fst).indexOf i : Int))

/-- The effect of placing the channels of `order` one after the other: each
`(file index, name)` appends its name to `channelnames` and writes the
running position at its file index.  Both placement phases of
`query_channels` have this shape; the state is
`(m_spec.channelnames, m_userchannels, nc)`. -/
def placeAll (order : List (Nat × String)) (st : List String × List Int × Int) :
    List String × List Int × Int :=
  order.foldl (fun st p => (st.1 ++ [p.2], st.2.1.set p.1 st.2.2, st.2.2 + 1)) st

/-- Specification, level model: one halving of the dimension `d`:
`d/2 + 1` when `d` is odd and the rounding mode is `ROUND_UP`, `d/2`
otherwise. -/
def Spec.half (roundingmode d : Int) : Int :=
  if d % 2 = 1 ∧ roundingmode = ROUND_UP then d / 2 + 1 else d / 2

/-- A run of `seek_subimage` calls, each one writing into the caller's copy of
the spec; the Reader after the last one, and `none` if a call aborts. -/
def seekAll (r : Reader) (indices : List Int) : Option Reader :=
  indices.foldlM (fun r i => (seek_subimage r i r.m_spec).map (fun res => res.2.1)) r

/-! ## Concrete files and Readers -/

/-- A file as the decoder library reports it, from the parts that vary. -/
def Example.file (tiled : Bool) (dataWindow : Box2i) (channels : List String)
    (attributes : List (String × Attribute)) (tileSize levelMode roundingMode numLevels : Int) :
    ExrFile :=
  { isOpenExrFile := true, tiled := tiled, openException := none,
    header := { dataWindow := dataWindow, channels := channels, attributes := attributes },
    tileXSize := tileSize, tileYSize := tileSize, levelMode := levelMode,
    levelRoundingMode := roundingMode, numLevels := numLevels,
    numXLevels := numLevels, numYLevels := numLevels }

/-- A freshly constructed Reader, with zeros for the indeterminate members. -/
def Example.fresh : Reader := construct 0 0 0 0 0 false

/-- The Reader after a successful `open` of `file` on a fresh Reader; the
fresh Reader itself if `open` fails. -/
def Example.opened (file : ExrFile) : Reader :=
  match open_ Example.fresh file ImageIOFormatSpec.default with
  | some (true, r, _) => r
  | _ => Example.fresh

/-- A 4x4 scanline file with channels A and Z. -/
def Example.fileAZ : ExrFile :=
  Example.file false ⟨0, 0, 3, 3⟩ ["A", "Z"] [] 0 ONE_LEVEL ROUND_DOWN 1

/-- A 4x4 scanline RGBA file whose data window starts at row 1. -/
def Example.fileRow1 : ExrFile :=
  Example.file false ⟨0, 1, 3, 4⟩ ["A", "B", "G", "R"] [] 0 ONE_LEVEL ROUND_DOWN 1

/-- The byte counts of a 4-pixel-wide, 4-channel half-float spec. -/
def Example.bytes4x4 : SpecBytes :=
  { channel_bytes := 2, pixel_bytes := 8, scanline_bytes := 32 }

/-- A 128x128 tiled RGBA file with 64x64 tiles, data window at the origin. -/
def Example.fileTiled : ExrFile :=
  Example.file true ⟨0, 0, 127, 127⟩ ["A", "B", "G", "R"] [] 64 ONE_LEVEL ROUND_DOWN 1

/-- The byte counts of a 128-pixel-wide, 4-channel half-float spec. -/
def Example.bytes128 : SpecBytes :=
  { channel_bytes := 2, pixel_bytes := 8, scanline_bytes := 1024 }

/-- A 256x256 mipmapped tiled file, `ROUND_DOWN`, 9 levels. -/
def Example.fileMip256 : ExrFile :=
  Example.file true ⟨0, 0, 255, 255⟩ ["A", "B", "G", "R"] [] 64 MIPMAP_LEVELS ROUND_DOWN 9

/-- A 5x5 mipmapped tiled file, `ROUND_UP`, 4 levels. -/
def Example.fileMip5 : ExrFile :=
  Example.file true ⟨0, 0, 4, 4⟩ ["A", "B", "G", "R"] [] 4 MIPMAP_LEVELS ROUND_UP 4

/-- A 256x1536 cube-face environment map (six faces stacked), scanline. -/
def Example.fileCube : ExrFile :=
  Example.file false ⟨0, 0, 255, 1535⟩ ["B", "G", "R"]
    [("envmap", .envmap ENVMAP_CUBE)] 0 ONE_LEVEL ROUND_DOWN 1

/-- A 256x1536 cube-face environment map, tiled and mipmapped. -/
def Example.fileCubeMip : ExrFile :=
  Example.file true ⟨0, 0, 255, 1535⟩ ["B", "G", "R"]
    [("envmap", .envmap ENVMAP_CUBE)] 64 MIPMAP_LEVELS ROUND_DOWN 11

/-- A 4x4 scanline file with a string attribute `wrapmodes`, a string
attribute `owner` and an int attribute `foo`. -/
def Example.fileAttrs : ExrFile :=
  Example.file false ⟨0, 0, 3, 3⟩ ["B", "G", "R"]
    [("foo", .int 3), ("owner", .string "me"), ("wrapmodes", .string "black,black")]
    0 ONE_LEVEL ROUND_DOWN 1

/-- A 4x4 scanline file whose only channel is named Red. -/
def Example.fileRed : ExrFile :=
  Example.file false ⟨0, 0, 3, 3⟩ ["Red"] [] 0 ONE_LEVEL ROUND_DOWN 1

/-! ## Case-insensitive comparison as the specification words it -/

/-- Specification, case rule: two characters are the same letter when they
are equal, or one is an upper-case ASCII letter and the other its lower-case
form (32 code points later). -/
def Spec.sameLetter (c d : Char) : Bool :=
  c == d || (c.isUpper && d.toNat == c.toNat + 32) || (d.isUpper && c.toNat == d.toNat + 32)

/-- Specification, case rule: two names are equal ignoring ASCII case when they
have the same length and the same letter at every position. -/
def Spec.equalsIgnoringCase (a b : String) : Bool :=
  a.length == b.length && (a.toList.zip b.toList).all (fun p => Spec.sameLetter p.1 p.2)

/-! ## Level sizes as the decoder library defines them -/

/-- Specification, level size under `ROUND_DOWN`: `max (1, floor (W / 2^k))`. -/
def Spec.levelFloor (W : Int) (k : Nat) : Int :=
  max 1 ⌊(W : ℚ) / 2 ^ k⌋

/-- Specification, level size under `ROUND_UP`: `max (1, ceil (W / 2^k))`. -/
def Spec.levelCeil (W : Int) (k : Nat) : Int :=
  max 1 ⌈(W : ℚ) / 2 ^ k⌉

/-! ## Call sequences -/

/-- A call on a Reader, with the arguments and what the decoder library
answers during it. -/
inductive Call where
  | Open (file : ExrFile) (newspec : ImageIOFormatSpec)
  | Close
  | Seek (index : Int) (newspec : ImageIOFormatSpec)
  | ReadScanline (b : SpecBytes) (y z data : Int) (thrown : Option String)
  | ReadTile (b : SpecBytes) (x y z data : Int) (thrown : Option String)
deriving DecidableEq, Repr

/-- The return value of a call and the Reader after it; `none` when the call
aborts. -/
def Call.apply (r : Reader) : Call → Option (Bool × Reader)
  | .Open file newspec => (open_ r file newspec).map (fun res => (res.1, res.2.1))
  | .Close => some (close r)
  | .Seek index newspec => (seek_subimage r index newspec).map (fun res => (res.1, res.2.1))
  | .ReadScanline b y z data thrown =>
    (read_native_scanline r b y z data thrown).map (fun sr => (sr.result, sr.reader))
  | .ReadTile b x y z data thrown =>
    (read_native_tile r b x y z data thrown).map (fun tr => (tr.result, tr.reader))

/-- The lifecycle state after a call that returned `result`: Open (`true`)
after a successful `open`, Closed (`false`) after `close`, as before
otherwise. -/
def Call.lifecycle (isOpen : Bool) (c : Call) (result : Bool) : Bool :=
  match c with
  | .Open _ _ => if result then true else isOpen
  | .Close => false
  | _ => isOpen

/-- One call on a Reader paired with its lifecycle state. -/
def step (st : Reader × Bool) (c : Call) : Option (Reader × Bool) :=
  (c.apply st.1).map (fun res => (res.2, c.lifecycle st.2 res.1))

/-- A sequence of calls; `none` when one of them aborts. -/
def run (st : Reader × Bool) (calls : List Call) : Option (Reader × Bool) :=
  calls.foldlM step st

/-- The handle invariant: exactly one of the two handles is set while Open,
neither while Closed. -/
def handleInvariant (st : Reader × Bool) : Bool :=
  if st.2 then st.1.m_input_scanline.isSome != st.1.m_input_tiled.isSome
  else st.1.m_input_scanline.isNone && st.1.m_input_tiled.isNone

/-- Along the sequence of calls, `open` is only called while the Reader is
Closed. -/
def opensOnlyWhenClosed : Reader × Bool → List Call → Bool
  | _, [] => true
  | st, c :: rest =>
    (match c with
      | .Open _ _ => !st.2
      | _ => true) &&
    (match step st c with
      | some st1 => opensOnlyWhenClosed st1 rest
      | none => true)

/-- The parameters the attribute loop of `open` adds for the attributes `l`,
in order: one for each attribute that is not skipped and has a supported
value type. -/
def attributeParams (h : Header) (l : List (String × Attribute)) :
    List (String × ParamValue) :=
  l.filterMap (fun hit =>
    match attributeKey hit.1, attributeValue h hit.1 hit.2 with
    | some key, some v => some (key, v)
    | _, _ => none)

/-! ## Channel resolver: the first loop -/

theorem scanLoop_names (l : List String) (c : Int) (st : List String × ChanIdx × Int) :
    (scanLoop l c st).1 = st.1 ++ l := by
  induction l generalizing c st with
  | nil => simp [scanLoop]
  | cons name rest ih =>
    obtain ⟨names, s, n⟩ := st
    simp [scanLoop, ih]

theorem scanLoop_count (l : List String) (c : Int) (st : List String × ChanIdx × Int) :
    (scanLoop l c st).2.2 = st.2.2 + l.length := by
  induction l generalizing c st with
  | nil => simp [scanLoop]
  | cons name rest ih =>
    obtain ⟨names, s, n⟩ := st
    simp [scanLoop, ih]
    ring

/-- A field of the index record that `classify` sets exactly on the names
satisfying `p` ends the first loop at the last such name. -/
theorem scanLoop_field (f : ChanIdx → Int) (p : String → Bool)
    (hf : ∀ name c s, f (classify name c s) = if p name then c else f s)
    (l : List String) (c : Int) (st : List String × ChanIdx × Int) :
    f (scanLoop l c st).2.1 =
      match Spec.lastIndexOf p l with
      | some j => c + (j : Int)
      | none => f st.2.1 := by
  induction l generalizing c st with
  | nil => simp [scanLoop, Spec.lastIndexOf]
  | cons name rest ih =>
    obtain ⟨names, s, n⟩ := st
    simp only [scanLoop, Spec.lastIndexOf]
    rw [ih]
    cases hlast : Spec.lastIndexOf p rest with
    | some j => simp; ring
    | none =>
      simp only [hf]
      by_cases hp : p name = true <;> simp [hp]

theorem iequals_excl (name a b : String)
    (hab : a.toList.map Char.toUpper ≠ b.toList.map Char.toUpper)
    (h : iequals name a = true) : iequals name b = false := by
  simp only [iequals, beq_iff_eq] at h
  simp only [iequals, beq_eq_false_iff_ne, ne_eq]
  intro h2
  exact hab (h.symm.trans h2)

theorem classify_red (name : String) (c : Int) (s : ChanIdx) :
    (classify name c s).red = if Spec.matchesClass ["R", "Red"] name then c else s.red := by
  simp only [classify, Spec.matchesClass, List.any_cons, List.any_nil, Bool.or_false]
  split_ifs <;> simp_all

theorem classify_green (name : String) (c : Int) (s : ChanIdx) :
    (classify name c s).green = if Spec.matchesClass ["G", "Green"] name then c else s.green := by
  simp only [classify, Spec.matchesClass, List.any_cons, List.any_nil, Bool.or_false]
  split_ifs <;> simp_all

theorem classify_blue (name : String) (c : Int) (s : ChanIdx) :
    (classify name c s).blue = if Spec.matchesClass ["B", "Blue"] name then c else s.blue := by
  simp only [classify, Spec.matchesClass, List.any_cons, List.any_nil, Bool.or_false]
  split_ifs <;> simp_all

theorem classify_alpha (name : String) (c : Int) (s : ChanIdx) :
    (classify name c s).alpha = if Spec.matchesClass ["A", "Alpha"] name then c else s.alpha := by
  simp only [classify, Spec.matchesClass, List.any_cons, List.any_nil, Bool.or_false]
  split_ifs <;> simp_all

theorem classify_zee (name : String) (c : Int) (s : ChanIdx) :
    (classify name c s).zee = if Spec.matchesClass ["Z"] name then c else s.zee := by
  have hA : iequals name "A" = true → iequals name "Z" = false :=
    iequals_excl name "A" "Z" (by decide)
  have hAl : iequals name "Alpha" = true → iequals name "Z" = false :=
    iequals_excl name "Alpha" "Z" (by decide)
  simp only [classify, Spec.matchesClass, List.any_cons, List.any_nil, Bool.or_false]
  split_ifs <;> simp_all

theorem lastIndexOf_some (p : String → Bool) (l : List String) (j : Nat)
    (h : Spec.lastIndexOf p l = some j) : ∃ x, l[j]? = some x ∧ p x = true := by
  induction l generalizing j with
  | nil => simp [Spec.lastIndexOf] at h
  | cons name rest ih =>
    simp only [Spec.lastIndexOf] at h
    cases hlast : Spec.lastIndexOf p rest with
    | some k =>
      rw [hlast] at h
      simp only [Option.some.injEq] at h
      subst h
      simpa using ih k hlast
    | none =>
      rw [hlast] at h
      by_cases hp : p name = true
      · simp only [hp, if_true, Option.some.injEq] at h
        subst h
        exact ⟨name, by simp, hp⟩
      · simp [hp] at h

theorem lastIndexOf_lt (p : String → Bool) (l : List String) (j : Nat)
    (h : Spec.lastIndexOf p l = some j) : j < l.length := by
  obtain ⟨x, hx, _⟩ := lastIndexOf_some p l j h
  exact (List.getElem?_eq_some_iff.1 hx).1

theorem matchesClass_iff (alts : List String) (name : String) :
    Spec.matchesClass alts name = true ↔
      name.toList.map Char.toUpper ∈ alts.map (fun a => a.toList.map Char.toUpper) := by
  simp only [Spec.matchesClass, List.any_eq_true, iequals, beq_iff_eq, List.mem_map]
  constructor
  · rintro ⟨a, ha, h⟩
    exact ⟨a, ha, h.symm⟩
  · rintro ⟨a, ha, h⟩
    exact ⟨a, ha, h.symm⟩

theorem classes_disjoint :
    ∀ c₁ ∈ Spec.classes, ∀ c₂ ∈ Spec.classes, c₁ ≠ c₂ →
      ∀ u ∈ c₁.2.map (fun a => a.toList.map Char.toUpper),
        u ∉ c₂.2.map (fun a => a.toList.map Char.toUpper) := by
  decide

/-- No channel is chosen for two classes. -/
theorem chosen_class_unique (channels : List String) (c₁ c₂ : String × List String)
    (h₁ : c₁ ∈ Spec.classes) (h₂ : c₂ ∈ Spec.classes) (j : Nat)
    (e₁ : Spec.lastIndexOf (Spec.matchesClass c₁.2) channels = some j)
    (e₂ : Spec.lastIndexOf (Spec.matchesClass c₂.2) channels = some j) : c₁ = c₂ := by
  by_contra hne
  obtain ⟨x, hx, px⟩ := lastIndexOf_some _ _ _ e₁
  obtain ⟨y, hy, py⟩ := lastIndexOf_some _ _ _ e₂
  rw [hx] at hy
  simp only [Option.some.injEq] at hy
  subst hy
  rw [matchesClass_iff] at px py
  exact classes_disjoint c₁ h₁ c₂ h₂ hne _ px py

theorem nodup_filterMap_of_inj {α β : Type} (f : α → Option β) (l : List α)
    (hl : l.Nodup)
    (hf : ∀ a ∈ l, ∀ a' ∈ l, ∀ b, f a = some b → f a' = some b → a = a') :
    (l.filterMap f).Nodup := by
  induction l with
  | nil => simp
  | cons a rest ih =>
    have hrest : (rest.filterMap f).Nodup :=
      ih (List.nodup_cons.1 hl).2 (fun x hx y hy b => hf x (List.mem_cons_of_mem _ hx) y
        (List.mem_cons_of_mem _ hy) b)
    cases hfa : f a with
    | none => simpa [List.filterMap_cons, hfa] using hrest
    | some b =>
      rw [List.filterMap_cons, hfa]
      refine List.nodup_cons.2 ⟨?_, hrest⟩
      intro hb
      obtain ⟨a', ha', hfa'⟩ := List.mem_filterMap.1 hb
      have := hf a (List.mem_cons_self _ _) a' (List.mem_cons_of_mem _ ha') b hfa hfa'
      subst this
      exact (List.nodup_cons.1 hl).1 ha'

theorem chosen_map_fst (channels : List String) :
    (Spec.chosen channels).map Prod.fst =
      Spec.classes.filterMap (fun cls => Spec.lastIndexOf (Spec.matchesClass cls.2) channels) := by
  simp only [Spec.chosen, List.map_filterMap]
  congr 1
  funext cls
  cases Spec.lastIndexOf (Spec.matchesClass cls.2) channels <;> simp

theorem chosen_nodup (channels : List String) :
    ((Spec.chosen channels).map Prod.fst).Nodup := by
  rw [chosen_map_fst]
  apply nodup_filterMap_of_inj
  · decide
  · intro a ha a' ha' b e e'
    exact chosen_class_unique channels a a' ha ha' b e e'

theorem chosen_lt (channels : List String) (i : Nat)
    (h : i ∈ (Spec.chosen channels).map Prod.fst) : i < channels.length := by
  rw [chosen_map_fst] at h
  obtain ⟨cls, _, hc⟩ := List.mem_filterMap.1 h
  exact lastIndexOf_lt _ _ _ hc

/-! ## Channel resolver: the canonical order is a permutation -/

theorem rest_map_fst (channels : List String) :
    (Spec.rest channels).map Prod.fst =
      (List.range channels.length).filter
        (fun i => decide (i ∉ (Spec.chosen channels).map Prod.fst)) := by
  simp only [Spec.rest]
  rw [← List.enum_map_fst, List.filter_map]
  rfl

theorem canonical_perm (channels : List String) :
    ((Spec.canonical channels).map Prod.fst).Perm (List.range channels.length) := by
  simp only [Spec.canonical, List.map_append, rest_map_fst]
  have h1 : ((Spec.chosen channels).map Prod.fst).Perm
      ((List.range channels.length).filter
        (fun i => decide (i ∈ (Spec.chosen channels).map Prod.fst))) := by
    rw [List.perm_ext_iff_of_nodup (chosen_nodup channels)
      ((List.nodup_range _).filter _)]
    intro a
    simp only [List.mem_filter, List.mem_range, decide_eq_true_eq]
    exact ⟨fun h => ⟨chosen_lt channels a h, h⟩, fun h => h.2⟩
  refine (h1.append_right _).trans ?_
  have h2 := List.filter_append_perm
    (fun i => decide (i ∈ (Spec.chosen channels).map Prod.fst)) (List.range channels.length)
  simpa using h2

theorem canonical_nodup (channels : List String) :
    ((Spec.canonical channels).map Prod.fst).Nodup :=
  (canonical_perm channels).nodup_iff.2 (List.nodup_range _)

theorem canonical_length (channels : List String) :
    (Spec.canonical channels).length = channels.length := by
  have h := (canonical_perm channels).length_eq
  simpa using h

theorem mem_canonical (channels : List String) (i : Nat) (h : i < channels.length) :
    i ∈ (Spec.canonical channels).map Prod.fst :=
  (canonical_perm channels).mem_iff.2 (List.mem_range.2 h)

/-! ## Channel resolver: the placement phases -/

theorem placeAll_append (a b : List (Nat × String)) (st : List String × List Int × Int) :
    placeAll (a ++ b) st = placeAll b (placeAll a st) := by
  simp [placeAll, List.foldl_append]

theorem placeAll_names (order : List (Nat × String)) (st : List String × List Int × Int) :
    (placeAll order st).1 = st.1 ++ order.map Prod.snd := by
  induction order generalizing st with
  | nil => simp [placeAll]
  | cons p rest ih =>
    have : placeAll (p :: rest) st =
        placeAll rest (st.1 ++ [p.2], st.2.1.set p.1 st.2.2, st.2.2 + 1) := rfl
    rw [this, ih]
    simp

theorem placeAll_length (order : List (Nat × String)) (st : List String × List Int × Int) :
    (placeAll order st).2.1.length = st.2.1.length := by
  induction order generalizing st with
  | nil => simp [placeAll]
  | cons p rest ih =>
    have : placeAll (p :: rest) st =
        placeAll rest (st.1 ++ [p.2], st.2.1.set p.1 st.2.2, st.2.2 + 1) := rfl
    rw [this, ih]
    simp

/-- After the placement of `order` (file indices pairwise distinct), the entry
at a placed file index is the start position plus the index's position in
`order`; the other entries are untouched. -/
theorem placeAll_getElem? (order : List (Nat × String)) (st : List String × List Int × Int)
    (hnd : (order.map Prod.fst).Nodup) (i : Nat) :
    (placeAll order st).2.1[i]? =
      if i ∈ order.map Prod.fst then
        (if i < st.2.1.length
          then some (st.2.2 + ((order.map Prod.fst).indexOf i : Int)) else none)
      else st.2.1[i]? := by
  induction order generalizing st with
  | nil => simp [placeAll]
  | cons p rest ih =>
    have hstep : placeAll (p :: rest) st =
        placeAll rest (st.1 ++ [p.2], st.2.1.set p.1 st.2.2, st.2.2 + 1) := rfl
    simp only [List.map_cons, List.nodup_cons] at hnd
    rw [hstep, ih _ hnd.2]
    simp only [List.map_cons, List.mem_cons, List.length_set]
    by_cases hip : i = p.1
    · subst hip
      simp [hnd.1, List.getElem?_set]
    · have hpi : p.1 ≠ i := fun h => hip h.symm
      by_cases hmem : i ∈ rest.map Prod.fst
      · simp only [hmem, if_true, hip, false_or]
        rw [List.indexOf_cons_ne _ hpi]
        split_ifs
        · simp only [Option.some.injEq]
          push_cast
          ring
        · rfl
      · simp [hmem, hip, List.getElem?_set, hpi]

theorem resize_length (v : List Int) (n : Nat) : (resize v n).length = n := by
  simp only [resize, List.length_append, List.length_take, List.length_replicate]
  omega

theorem placeClass_eq (o : Option Nat) (canon : String) (st : List String × List Int × Int) :
    placeClass (match o with | some j => (j : Int) | none => -1) canon st =
      placeAll (o.map (fun i => (i, canon))).toList st := by
  cases o with
  | none => simp [placeClass, placeAll]
  | some j => simp [placeClass, placeAll]

theorem filterMap_cons_toList {α β : Type} (f : α → Option β) (a : α) (l : List α) :
    List.filterMap f (a :: l) = (f a).toList ++ List.filterMap f l := by
  cases h : f a <;> simp [List.filterMap_cons, h]

theorem chosen_eq_append (channels : List String) :
    Spec.chosen channels =
      ((Spec.lastIndexOf (Spec.matchesClass ["R", "Red"]) channels).map
          (fun i => (i, "R"))).toList ++
      (((Spec.lastIndexOf (Spec.matchesClass ["G", "Green"]) channels).map
          (fun i => (i, "G"))).toList ++
      (((Spec.lastIndexOf (Spec.matchesClass ["B", "Blue"]) channels).map
          (fun i => (i, "B"))).toList ++
      (((Spec.lastIndexOf (Spec.matchesClass ["A", "Alpha"]) channels).map
          (fun i => (i, "A"))).toList ++
      ((Spec.lastIndexOf (Spec.matchesClass ["Z"]) channels).map
          (fun i => (i, "Z"))).toList))) := by
  simp only [Spec.chosen, Spec.classes, filterMap_cons_toList, List.filterMap_nil,
    List.append_nil]

theorem mem_chosen_iff (channels : List String) (c : Nat) :
    c ∈ (Spec.chosen channels).map Prod.fst ↔
      (Spec.lastIndexOf (Spec.matchesClass ["R", "Red"]) channels = some c ∨
       Spec.lastIndexOf (Spec.matchesClass ["G", "Green"]) channels = some c ∨
       Spec.lastIndexOf (Spec.matchesClass ["B", "Blue"]) channels = some c ∨
       Spec.lastIndexOf (Spec.matchesClass ["A", "Alpha"]) channels = some c ∨
       Spec.lastIndexOf (Spec.matchesClass ["Z"]) channels = some c) := by
  rw [chosen_map_fst]
  simp [Spec.classes, List.mem_filterMap]

theorem idx_eq_iff (o : Option Nat) (c : Nat) :
    (match o with | some j => (j : Int) | none => -1) = (c : Int) ↔ o = some c := by
  cases o with
  | none => simp
  | some j => simp

theorem restLoop_eq (s : ChanIdx) (idxs : List Nat)
    (H : ∀ c : Nat, (s.red = c ∨ s.green = c ∨ s.blue = c ∨ s.alpha = c ∨ s.zee = c) ↔
      c ∈ idxs)
    (l : List String) (c : Nat) (st : List String × List Int × Int) :
    restLoop s l (c : Int) st =
      placeAll ((l.enumFrom c).filter (fun p => decide (p.1 ∉ idxs))) st := by
  induction l generalizing c st with
  | nil => simp [restLoop, placeAll]
  | cons name rest ih =>
    obtain ⟨cn, uc, nc⟩ := st
    have hc : ((c : Int) + 1) = ((c + 1 : Nat) : Int) := by push_cast; rfl
    simp only [restLoop, List.enumFrom_cons, hc]
    by_cases hmem : c ∈ idxs
    · rw [if_pos ((H c).2 hmem), ih]
      simp [List.filter_cons, hmem]
    · rw [if_neg (fun h => hmem ((H c).1 h)), ih]
      simp [List.filter_cons, hmem, placeAll]

/-- The placement of the whole canonical order into a vector of the right
length yields the specification's `user_index`. -/
theorem placeAll_canonical (channels : List String) (cn : List String) (uc : List Int)
    (hlen : uc.length = channels.length) :
    (placeAll (Spec.canonical channels) (cn, uc, 0)).2.1 = Spec.user_index channels := by
  apply List.ext_getElem?
  intro i
  rw [placeAll_getElem? _ _ (canonical_nodup channels)]
  simp only [Spec.user_index, hlen, zero_add]
  by_cases hi : i < channels.length
  · simp [mem_canonical channels i hi, hi, List.getElem?_range]
  · have hnot : i ∉ (Spec.canonical channels).map Prod.fst := by
      intro h
      exact hi (List.mem_range.1 ((canonical_perm channels).mem_iff.1 h))
    rw [if_neg hnot]
    rw [List.getElem?_eq_none (by omega), List.getElem?_eq_none (by simp; omega)]

/-- The three loops of `query_channels` compute the canonical order of the
specification: what the method returns on a Reader whose `m_spec` has no
channel names yet. -/
theorem query_channels_eq (r : Reader) (channels : List String)
    (h : r.m_spec.channelnames = []) :
    query_channels r channels =
      some { r with
        m_spec := { r.m_spec with
          nchannels := (channels.length : Int),
          channelnames := Spec.channelnames channels },
        m_channelnames := r.m_channelnames ++ channels,
        m_userchannels := Spec.user_index channels } := by
  unfold query_channels
  have hnames := scanLoop_names channels 0 (r.m_channelnames, ⟨-1, -1, -1, -1, -1⟩, 0)
  have hcount := scanLoop_count channels 0 (r.m_channelnames, ⟨-1, -1, -1, -1, -1⟩, 0)
  have hR := scanLoop_field ChanIdx.red _ classify_red channels 0
    (r.m_channelnames, ⟨-1, -1, -1, -1, -1⟩, 0)
  have hG := scanLoop_field ChanIdx.green _ classify_green channels 0
    (r.m_channelnames, ⟨-1, -1, -1, -1, -1⟩, 0)
  have hB := scanLoop_field ChanIdx.blue _ classify_blue channels 0
    (r.m_channelnames, ⟨-1, -1, -1, -1, -1⟩, 0)
  have hA := scanLoop_field ChanIdx.alpha _ classify_alpha channels 0
    (r.m_channelnames, ⟨-1, -1, -1, -1, -1⟩, 0)
  have hZ := scanLoop_field ChanIdx.zee _ classify_zee channels 0
    (r.m_channelnames, ⟨-1, -1, -1, -1, -1⟩, 0)
  generalize scanLoop channels 0 (r.m_channelnames, ⟨-1, -1, -1, -1, -1⟩, 0) = scan at *
  obtain ⟨names, s, n⟩ := scan
  simp only [zero_add] at hnames hcount hR hG hB hA hZ
  subst hnames hcount
  have hchain : placeClass s.zee "Z" (placeClass s.alpha "A" (placeClass s.blue "B"
      (placeClass s.green "G" (placeClass s.red "R"
        (r.m_spec.channelnames, resize r.m_userchannels (channels.length : Int).toNat,
          (0 : Int)))))) =
      placeAll (Spec.chosen channels)
        ([], resize r.m_userchannels channels.length, 0) := by
    rw [hR, hG, hB, hA, hZ, chosen_eq_append]
    simp only [placeClass_eq, placeAll_append, h, Int.toNat_ofNat]
  have hrest : ∀ st, restLoop s channels 0 st = placeAll (Spec.rest channels) st := by
    intro st
    have := restLoop_eq s ((Spec.chosen channels).map Prod.fst) (by
      intro c
      rw [hR, hG, hB, hA, hZ, mem_chosen_iff]
      simp only [idx_eq_iff]) channels 0 st
    simpa [Spec.rest, List.enum] using this
  simp only [hchain, hrest, ← placeAll_append]
  have hcan : Spec.chosen channels ++ Spec.rest channels = Spec.canonical channels := rfl
  rw [hcan]
  have e1 := placeAll_names (Spec.canonical channels)
    ([], resize r.m_userchannels channels.length, 0)
  have e2 := placeAll_canonical channels [] (resize r.m_userchannels channels.length)
    (resize_length _ _)
  generalize placeAll (Spec.canonical channels)
    ([], resize r.m_userchannels channels.length, 0) = fin at *
  obtain ⟨cn, uc, nc⟩ := fin
  simp only [List.nil_append] at e1 e2
  subst e1 e2
  simp [canonical_length, Spec.channelnames]

theorem map_indexOf_self (l : List Nat) (hnd : l.Nodup) :
    l.map (fun a => l.indexOf a) = List.range l.length := by
  apply List.ext_getElem
  · simp
  · intro i h1 h2
    simp [List.indexOf_getElem hnd]

/-- The specification's `user_index` is a permutation of `0 … N-1`. -/
theorem user_index_perm (channels : List String) :
    (Spec.user_index channels).Perm ((List.range channels.length).map Int.ofNat) := by
  have hperm := canonical_perm channels
  have h1 : ((List.range channels.length).map
      (fun i => ((Spec.canonical channels).map Prod.fst).indexOf i)).Perm
      (List.range channels.length) := by
    refine (hperm.symm.map _).trans ?_
    rw [map_indexOf_self _ (canonical_nodup channels), hperm.length_eq, List.length_range]
  have h2 : Spec.user_index channels =
      ((List.range channels.length).map
        (fun i => ((Spec.canonical channels).map Prod.fst).indexOf i)).map Int.ofNat := by
    simp [Spec.user_index, List.map_map, Function.comp_def]
  rw [h2]
  exact h1.map _

theorem fresh_channelnames (lm rm ns tw th : Int) (cf : Bool) :
    (construct lm rm ns tw th cf).m_spec.channelnames = [] := rfl

/-- C1: after `query_channels` on a freshly constructed Reader, for every
file channel list, `m_userchannels` has the length of the list and is a
permutation of `0 … N-1`: every value lies in `[0, N)` and no two file
channels receive the same position. -/
theorem C1_user_index_permutation (lm rm ns tw th : Int) (cf : Bool)
    (channels : List String) :
    ∃ r, query_channels (construct lm rm ns tw th cf) channels = some r ∧
      r.m_userchannels.length = channels.length ∧
      r.m_userchannels.Perm ((List.range channels.length).map Int.ofNat) ∧
      (∀ v ∈ r.m_userchannels, 0 ≤ v ∧ v < (channels.length : Int)) ∧
      r.m_userchannels.Nodup := by
  refine ⟨_, query_channels_eq _ channels (fresh_channelnames lm rm ns tw th cf), ?_⟩
  have hperm := user_index_perm channels
  refine ⟨by simpa using hperm.length_eq, hperm, ?_, ?_⟩
  · intro v hv
    obtain ⟨i, hi, rfl⟩ := List.mem_map.1 (hperm.mem_iff.1 hv)
    have := List.mem_range.1 hi
    constructor
    · exact Int.ofNat_nonneg i
    · exact Int.ofNat_lt.2 this
  · exact hperm.nodup_iff.2
      ((List.nodup_range _).map (fun a b h => Int.ofNat.inj h))

/-- C2: for every file channel list, `query_channels` on a fresh Reader yields
as `channelnames` the canonical names of the classes found, in the order
R, G, B, A, Z, followed by the channels not chosen for a class in file order
under their file names, and `m_userchannels[i]` is the position of file
channel `i` in that canonical order; for the file order B, G, R, Z, extra
this is R, G, B, Z, extra and 2, 1, 0, 3, 4. -/
theorem C2_canonical_order (lm rm ns tw th : Int) (cf : Bool) :
    (∀ channels : List String,
      ∃ r, query_channels (construct lm rm ns tw th cf) channels = some r ∧
        r.m_spec.channelnames = Spec.channelnames channels ∧
        r.m_userchannels = Spec.user_index channels ∧
        r.m_spec.nchannels = (channels.length : Int)) ∧
    (∃ r, query_channels (construct lm rm ns tw th cf) ["B", "G", "R", "Z", "extra"] = some r ∧
        r.m_spec.channelnames = ["R", "G", "B", "Z", "extra"] ∧
        r.m_userchannels = [2, 1, 0, 3, 4]) := by
  constructor
  · intro channels
    exact ⟨_, query_channels_eq _ channels (fresh_channelnames lm rm ns tw th cf),
      rfl, rfl, rfl⟩
  · refine ⟨_, query_channels_eq _ _ (fresh_channelnames lm rm ns tw th cf), ?_, ?_⟩
    · show Spec.channelnames ["B", "G", "R", "Z", "extra"] = ["R", "G", "B", "Z", "extra"]
      decide
    · show Spec.user_index ["B", "G", "R", "Z", "extra"] = [2, 1, 0, 3, 4]
      decide

/-- C3 (the code departs from the claim): `query_channels` never assigns
`alpha_channel` or `z_channel`; on a file with the channels A and Z, `open`
returns the channel names A, Z with both designated indices still -1, where
the claim has 0 and 1. -/
theorem C3_alpha_z_never_written :
    (∀ (r : Reader) (channels : List String),
      (query_channels r channels).map
          (fun r1 => (r1.m_spec.alpha_channel, r1.m_spec.z_channel)) =
        (query_channels r channels).map
          (fun _ => (r.m_spec.alpha_channel, r.m_spec.z_channel))) ∧
    (open_ Example.fresh Example.fileAZ ImageIOFormatSpec.default).map
        (fun res => (res.1, res.2.2.channelnames, res.2.2.alpha_channel, res.2.2.z_channel)) =
      some (true, ["A", "Z"], -1, -1) := by
  constructor
  · intro r channels
    unfold query_channels
    dsimp only
    split_ifs <;> simp
  · rfl

/-! ## Read adapter -/

/-- Every entry of the frame buffer built by the slice loop is the slice of
some channel below the channel count, under that channel's canonical name. -/
theorem insertSlices_mem (spec : ImageIOFormatSpec) (b : SpecBytes) (buf : Int)
    (n c : Nat) (fb out : List (String × Slice))
    (hfb : ∀ p ∈ fb, ∃ k : Nat, k < c ∧ spec.channelnames[k]? = some p.1 ∧
      p.2 = channelSlice b buf k)
    (h : insertSlices spec b buf n c fb = some out) :
    ∀ p ∈ out, ∃ k : Nat, k < c + n ∧ spec.channelnames[k]? = some p.1 ∧
      p.2 = channelSlice b buf k := by
  induction n generalizing c fb with
  | zero =>
    simp only [insertSlices, Option.some.injEq] at h
    subst h
    simpa using hfb
  | succ n ih =>
    simp only [insertSlices] at h
    cases hname : spec.channelnames[c]? with
    | none => simp [hname] at h
    | some name =>
      rw [hname] at h
      have := ih (c + 1) _ (by
        intro p hp
        simp only [FrameBuffer.insert, List.mem_append, List.mem_filter, List.mem_singleton] at hp
        rcases hp with ⟨hp, _⟩ | hp
        · obtain ⟨k, hk, hk2⟩ := hfb p hp
          exact ⟨k, by omega, hk2⟩
        · subst hp
          exact ⟨c, by omega, by simpa using hname, by simp⟩) h
      intro p hp
      obtain ⟨k, hk, hk2⟩ := this p hp
      exact ⟨k, by omega, hk2⟩

/-- Where the decoder stores the first pixel of the row `read_native_scanline`
asks for: `2 * m_spec.y * scanline_bytes` before the caller's `data`. -/
theorem scanline_address (spec : ImageIOFormatSpec) (b : SpecBytes) (y data c : Int) :
    decoderAddress (channelSlice b (virtualBase spec b y data) c) spec.x (y - spec.y) =
      data + c * b.channel_bytes - 2 * spec.y * b.scanline_bytes := by
  simp only [decoderAddress, channelSlice, virtualBase]
  ring

/-- What `read_native_scanline` installs and requests, for every Reader and
every request: each slice of the frame buffer belongs to a channel `k` below
the channel count, and the decoder stores the first pixel of the requested
row of that channel at `data + k * channel_bytes - 2 * m_spec.y * scanline_bytes`. -/
theorem read_native_scanline_address (r : Reader) (b : SpecBytes) (y z data : Int)
    (thrown : Option String) (sr : ScanlineRead)
    (h : read_native_scanline r b y z data thrown = some sr) :
    sr.scanLine1 = y - r.m_spec.y ∧ sr.scanLine2 = y - r.m_spec.y ∧
    ∀ p ∈ sr.frameBuffer, ∃ k : Nat, (k : Int) < r.m_spec.nchannels ∧
      r.m_spec.channelnames[k]? = some p.1 ∧
      decoderAddress p.2 r.m_spec.x sr.scanLine1 =
        data + k * b.channel_bytes - 2 * r.m_spec.y * b.scanline_bytes := by
  unfold read_native_scanline at h
  cases hin : r.m_input_scanline with
  | none => simp [hin] at h
  | some f =>
    simp only [hin] at h
    cases hfb : insertSlices r.m_spec b (virtualBase r.m_spec b y data)
        r.m_spec.nchannels.toNat 0 [] with
    | none => simp [hfb] at h
    | some fb =>
      simp only [hfb] at h
      have hmem := insertSlices_mem _ _ _ _ _ _ _ (by simp) hfb
      have key : sr.scanLine1 = y - r.m_spec.y ∧ sr.scanLine2 = y - r.m_spec.y ∧
          sr.frameBuffer = fb := by
        cases thrown <;> simp only [Option.some.injEq] at h <;> subst h <;> simp
      obtain ⟨k1, k2, k3⟩ := key
      refine ⟨k1, k2, ?_⟩
      intro p hp
      rw [k3] at hp
      obtain ⟨k, hk, hn, hs⟩ := hmem p hp
      refine ⟨k, by omega, hn, ?_⟩
      rw [hs, k1]
      exact scanline_address r.m_spec b y data k

/-- C4 (the code departs from the claim): the decoder's address for the first
pixel of the row read is `data + c * channel_bytes - 2 * m_spec.y *
scanline_bytes`, not `data + c * channel_bytes`.  On a file whose data window
starts at row 1, reading row 2 into `data = 1000` makes the decoder store the
four channels at 936, 938, 940, 942, where the claim has 1000, 1002, 1004,
1006. -/
theorem C4_scanline_back_offset :
    (∀ (spec : ImageIOFormatSpec) (b : SpecBytes) (y data c : Int),
      decoderAddress (channelSlice b (virtualBase spec b y data) c) spec.x (y - spec.y) =
        data + c * b.channel_bytes - 2 * spec.y * b.scanline_bytes) ∧
    (Example.opened Example.fileRow1).m_spec.x = 0 ∧
    (Example.opened Example.fileRow1).m_spec.y = 1 ∧
    (read_native_scanline (Example.opened Example.fileRow1) Example.bytes4x4 2 0 1000 none).map
        (fun sr => (sr.result, sr.scanLine1, sr.scanLine2,
          sr.frameBuffer.map (fun p => (p.1, decoderAddress p.2 0 sr.scanLine1)))) =
      some (true, 1, 1, [("R", 936), ("G", 938), ("B", 940), ("A", 942)]) :=
  ⟨scanline_address, rfl, rfl, rfl⟩

/-- Where the decoder stores the pixel `(x, y)`, the top-left pixel of the
tile a tile-aligned `read_native_tile (x, y)` asks for. -/
theorem tile_address (spec : ImageIOFormatSpec) (b : SpecBytes) (x y data c : Int) :
    decoderAddress (channelSlice b (virtualBase spec b y data) c) x y =
      data + c * b.channel_bytes + (x - spec.x) * b.pixel_bytes
        - spec.y * b.scanline_bytes := by
  simp only [decoderAddress, channelSlice, virtualBase]
  ring

/-- What `read_native_tile` installs and requests, for every Reader and every
request: the tile indices are the origin-relative coordinates divided by the
tile size, at level `m_subimage`, and the decoder stores the pixel `(x, y)`
of the channel `k` of each slice at
`data + k * channel_bytes + (x - m_spec.x) * pixel_bytes - m_spec.y * scanline_bytes`. -/
theorem read_native_tile_address (r : Reader) (b : SpecBytes) (x y z data : Int)
    (thrown : Option String) (tr : TileRead)
    (h : read_native_tile r b x y z data thrown = some tr) :
    tr.dx = cdiv (x - r.m_spec.x) r.m_spec.tile_width ∧
    tr.dy = cdiv (y - r.m_spec.y) r.m_spec.tile_height ∧
    tr.lx = r.m_subimage ∧ tr.ly = r.m_subimage ∧
    ∀ p ∈ tr.frameBuffer, ∃ k : Nat, (k : Int) < r.m_spec.nchannels ∧
      r.m_spec.channelnames[k]? = some p.1 ∧
      decoderAddress p.2 x y =
        data + k * b.channel_bytes + (x - r.m_spec.x) * b.pixel_bytes
          - r.m_spec.y * b.scanline_bytes := by
  unfold read_native_tile at h
  cases hin : r.m_input_tiled with
  | none => simp [hin] at h
  | some f =>
    simp only [hin] at h
    cases hfb : insertSlices r.m_spec b (virtualBase r.m_spec b y data)
        r.m_spec.nchannels.toNat 0 [] with
    | none => simp [hfb] at h
    | some fb =>
      simp only [hfb] at h
      have hmem := insertSlices_mem _ _ _ _ _ _ _ (by simp) hfb
      by_cases hz : r.m_spec.tile_width = 0 ∨ r.m_spec.tile_height = 0
      · simp [hz] at h
      · rw [if_neg hz] at h
        have key : tr.dx = cdiv (x - r.m_spec.x) r.m_spec.tile_width ∧
            tr.dy = cdiv (y - r.m_spec.y) r.m_spec.tile_height ∧
            tr.lx = r.m_subimage ∧ tr.ly = r.m_subimage ∧ tr.frameBuffer = fb := by
          cases thrown <;> simp only [Option.some.injEq] at h <;> subst h <;> simp
        obtain ⟨k1, k2, k3, k4, k5⟩ := key
        refine ⟨k1, k2, k3, k4, ?_⟩
        intro p hp
        rw [k5] at hp
        obtain ⟨k, hk, hn, hs⟩ := hmem p hp
        refine ⟨k, by omega, hn, ?_⟩
        rw [hs]
        exact tile_address r.m_spec b x y data k

/-- C5 (the code departs from the claim): the tile indices are as claimed,
but the decoder's address for the top-left pixel `(x, y)` of the tile is
`data + c * channel_bytes + (x - m_spec.x) * pixel_bytes - m_spec.y *
scanline_bytes`.  On a 128x128 file with 64x64 tiles at the origin, the
request `(64, 0)` into `data = 1000` asks for tile `(1, 0)` and makes the
decoder store the four channels of that tile's top-left pixel at 1512, 1514,
1516, 1518, where the claim has 1000, 1002, 1004, 1006. -/
theorem C5_tile_back_offset :
    (∀ (spec : ImageIOFormatSpec) (b : SpecBytes) (x y data c : Int),
      decoderAddress (channelSlice b (virtualBase spec b y data) c) x y =
        data + c * b.channel_bytes + (x - spec.x) * b.pixel_bytes
          - spec.y * b.scanline_bytes) ∧
    (Example.opened Example.fileTiled).m_spec.x = 0 ∧
    (Example.opened Example.fileTiled).m_spec.y = 0 ∧
    (Example.opened Example.fileTiled).m_spec.tile_width = 64 ∧
    (Example.opened Example.fileTiled).m_spec.tile_height = 64 ∧
    (read_native_tile (Example.opened Example.fileTiled) Example.bytes128 64 0 0 1000 none).map
        (fun tr => (tr.result, tr.dx, tr.dy,
          tr.frameBuffer.map (fun p => (p.1, decoderAddress p.2 (0 + tr.dx * 64) (0 + tr.dy * 64))))) =
      some (true, 1, 0, [("R", 1512), ("G", 1514), ("B", 1516), ("A", 1518)]) :=
  ⟨tile_address, rfl, rfl, rfl, rfl, rfl⟩

/-! ## Level model -/

theorem halve_eq (rm d : Int) (hd : 1 ≤ d) : halve rm d = max 1 (Spec.half rm d) := by
  have hdiv : cdiv d 2 = d / 2 := Int.tdiv_eq_ediv (by omega) (by omega)
  unfold halve Spec.half
  rw [hdiv]
  by_cases h1 : d > 1
  · rw [if_pos h1]
    have : 1 ≤ d / 2 := by omega
    split_ifs <;> omega
  · have : d = 1 := by omega
    subst this
    split_ifs <;> simp

theorem halve_pos (rm d : Int) (hd : 1 ≤ d) : 1 ≤ halve rm d := by
  rw [halve_eq rm d hd]
  exact le_max_left _ _

theorem mipLoop_succ (rm : Int) (n : Nat) (wh : Int × Int) :
    mipLoop rm (n + 1) wh =
      (halve rm (mipLoop rm n wh).1, halve rm (mipLoop rm n wh).2) := by
  induction n generalizing wh with
  | zero => rfl
  | succ n ih =>
    have : mipLoop rm (n + 1 + 1) wh = mipLoop rm (n + 1) (halve rm wh.1, halve rm wh.2) := rfl
    rw [this, ih]
    rfl

theorem mipLoop_pos (rm : Int) (n : Nat) (wh : Int × Int) (h1 : 1 ≤ wh.1) (h2 : 1 ≤ wh.2) :
    1 ≤ (mipLoop rm n wh).1 ∧ 1 ≤ (mipLoop rm n wh).2 := by
  induction n with
  | zero => exact ⟨h1, h2⟩
  | succ n ih =>
    rw [mipLoop_succ]
    exact ⟨halve_pos _ _ ih.1, halve_pos _ _ ih.2⟩

/-- The spec written by `seek_subimage` at a mipmap level. -/
theorem seek_subimage_mip (r : Reader) (hmode : r.m_levelmode = MIPMAP_LEVELS)
    (index : Int) (h0 : 0 ≤ index) (h1 : index < r.m_nsubimages)
    (newspec : ImageIOFormatSpec) :
    ∃ r1 s1, seek_subimage r index newspec = some (true, r1, s1) ∧
      s1.width = (mipLoop r.m_roundingmode index.toNat (r.m_topwidth, r.m_topheight)).1 ∧
      s1.height = (mipLoop r.m_roundingmode index.toNat (r.m_topwidth, r.m_topheight)).2 := by
  have hne : ¬ (MIPMAP_LEVELS = ONE_LEVEL) := by decide
  have hrange : ¬ (index < 0 ∨ index ≥ r.m_nsubimages) := by omega
  simp only [seek_subimage, hrange, if_false, hmode, hne, and_false, if_true]
  exact ⟨_, _, rfl, rfl, rfl⟩

/-- A call of `seek_subimage` leaves the level description alone. -/
theorem seek_subimage_levels (r : Reader) (index : Int) (newspec : ImageIOFormatSpec)
    (res : Bool × Reader × ImageIOFormatSpec) (h : seek_subimage r index newspec = some res) :
    res.2.1.m_levelmode = r.m_levelmode ∧ res.2.1.m_roundingmode = r.m_roundingmode ∧
    res.2.1.m_nsubimages = r.m_nsubimages ∧ res.2.1.m_topwidth = r.m_topwidth ∧
    res.2.1.m_topheight = r.m_topheight := by
  unfold seek_subimage at h
  by_cases hrange : index < 0 ∨ index ≥ r.m_nsubimages
  · rw [if_pos hrange] at h
    cases h
    simp
  · rw [if_neg hrange] at h
    dsimp only at h
    by_cases h0 : index = 0 ∧ r.m_levelmode = ONE_LEVEL
    · rw [if_pos h0] at h
      cases h
      simp
    · rw [if_neg h0] at h
      by_cases hm : r.m_levelmode = MIPMAP_LEVELS
      · rw [if_pos hm] at h
        cases h
        simp
      · rw [if_neg hm] at h
        by_cases hr : r.m_levelmode = RIPMAP_LEVELS
        · rw [if_pos hr] at h
          cases h
          simp
        · rw [if_neg hr] at h
          simp at h

theorem seekAll_levels (indices : List Int) (r r1 : Reader) (h : seekAll r indices = some r1) :
    r1.m_levelmode = r.m_levelmode ∧ r1.m_roundingmode = r.m_roundingmode ∧
    r1.m_nsubimages = r.m_nsubimages ∧ r1.m_topwidth = r.m_topwidth ∧
    r1.m_topheight = r.m_topheight := by
  induction indices generalizing r with
  | nil =>
    simp only [seekAll, List.foldlM_nil] at h
    cases h
    simp
  | cons i rest ih =>
    simp only [seekAll, List.foldlM_cons] at h
    cases hs : seek_subimage r i r.m_spec with
    | none => simp [hs] at h
    | some res =>
      simp only [hs, Option.map_some', Option.bind_eq_bind, Option.some_bind] at h
      have h1 := ih res.2.1 h
      have h2 := seek_subimage_levels r i r.m_spec res hs
      refine ⟨h1.1.trans h2.1, h1.2.1.trans h2.2.1, h1.2.2.1.trans h2.2.2.1,
        h1.2.2.2.1.trans h2.2.2.2.1, h1.2.2.2.2.trans h2.2.2.2.2⟩

/-- On a mipmapped Reader no run of `seek_subimage` calls aborts. -/
theorem seekAll_mip_total (indices : List Int) (r : Reader)
    (hmode : r.m_levelmode = MIPMAP_LEVELS) : ∃ r1, seekAll r indices = some r1 := by
  induction indices generalizing r with
  | nil => exact ⟨r, rfl⟩
  | cons i rest ih =>
    simp only [seekAll, List.foldlM_cons]
    by_cases hrange : i < 0 ∨ i ≥ r.m_nsubimages
    · have hs : seek_subimage r i r.m_spec = some (false, r, r.m_spec) := by
        simp [seek_subimage, hrange]
      simp only [hs, Option.map_some', Option.bind_eq_bind, Option.some_bind]
      exact ih r hmode
    · obtain ⟨r1, s1, hs, _⟩ := seek_subimage_mip r hmode i (by omega) (by omega) r.m_spec
      simp only [hs, Option.map_some', Option.bind_eq_bind, Option.some_bind]
      exact ih r1 ((seek_subimage_levels r i r.m_spec _ hs).1.trans hmode)

/-- C6: on a mipmapped Reader with top dimensions at least 1, whatever
subimages were sought before, `seek_subimage (k)` for a valid `k ≥ 1` reports
`width = max 1 (half (width (k-1)))` and `height = max 1 (half (height (k-1)))`,
where the sizes of level `k-1` are those `seek_subimage (k-1)` reports and
level 0 has the top dimensions. -/
theorem C6_mip_level_recurrence (r : Reader) (before₁ before₂ : List Int) (k : Int)
    (ns₁ ns₂ : ImageIOFormatSpec)
    (hmode : r.m_levelmode = MIPMAP_LEVELS) (hW : 1 ≤ r.m_topwidth) (hH : 1 ≤ r.m_topheight)
    (hk : 1 ≤ k) (hv : k < r.m_nsubimages) :
    ∃ r₁ r₂ ra sa rb sb,
      seekAll r before₁ = some r₁ ∧ seekAll r before₂ = some r₂ ∧
      seek_subimage r₁ (k - 1) ns₁ = some (true, ra, sa) ∧
      seek_subimage r₂ k ns₂ = some (true, rb, sb) ∧
      sb.width = max 1 (Spec.half r.m_roundingmode sa.width) ∧
      sb.height = max 1 (Spec.half r.m_roundingmode sa.height) ∧
      (k = 1 → sa.width = r.m_topwidth ∧ sa.height = r.m_topheight) := by
  obtain ⟨r₁, e₁⟩ := seekAll_mip_total before₁ r hmode
  obtain ⟨r₂, e₂⟩ := seekAll_mip_total before₂ r hmode
  obtain ⟨m₁, d₁, n₁, w₁, t₁⟩ := seekAll_levels before₁ r r₁ e₁
  obtain ⟨m₂, d₂, n₂, w₂, t₂⟩ := seekAll_levels before₂ r r₂ e₂
  obtain ⟨ra, sa, ea, wa, ha⟩ :=
    seek_subimage_mip r₁ (m₁.trans hmode) (k - 1) (by omega) (by omega) ns₁
  obtain ⟨rb, sb, eb, wb, hb⟩ :=
    seek_subimage_mip r₂ (m₂.trans hmode) k (by omega) (by omega) ns₂
  refine ⟨r₁, r₂, ra, sa, rb, sb, e₁, e₂, ea, eb, ?_, ?_, ?_⟩
  · have hsucc : k.toNat = (k - 1).toNat + 1 := by omega
    rw [wb, wa, hsucc, mipLoop_succ, d₁, d₂, w₁, w₂, t₁, t₂]
    exact halve_eq _ _ (mipLoop_pos _ _ _ hW hH).1
  · have hsucc : k.toNat = (k - 1).toNat + 1 := by omega
    rw [hb, ha, hsucc, mipLoop_succ, d₁, d₂, w₁, w₂, t₁, t₂]
    exact halve_eq _ _ (mipLoop_pos _ _ _ hW hH).2
  · intro h1
    subst h1
    rw [wa, ha, w₁, t₁]
    exact ⟨rfl, rfl⟩

/-- C6 at a 5x5 `ROUND_UP` file, level 2 after other seeks; and the sizes the
256x256 `ROUND_DOWN` file and the 5x5 `ROUND_UP` file report. -/
theorem C6_mip_level_recurrence_witness :
    (Example.opened Example.fileMip5).m_levelmode = MIPMAP_LEVELS ∧
    1 ≤ (Example.opened Example.fileMip5).m_topwidth ∧
    1 ≤ (Example.opened Example.fileMip5).m_topheight ∧
    (2 : Int) < (Example.opened Example.fileMip5).m_nsubimages ∧
    (∃ r₁ r₂ ra sa rb sb,
      seekAll (Example.opened Example.fileMip5) [3] = some r₁ ∧
      seekAll (Example.opened Example.fileMip5) [0, 1] = some r₂ ∧
      seek_subimage r₁ (2 - 1) ImageIOFormatSpec.default = some (true, ra, sa) ∧
      seek_subimage r₂ 2 ImageIOFormatSpec.default = some (true, rb, sb) ∧
      sb.width = max 1 (Spec.half (Example.opened Example.fileMip5).m_roundingmode sa.width) ∧
      sb.height = max 1 (Spec.half (Example.opened Example.fileMip5).m_roundingmode sa.height) ∧
      ((2 : Int) = 1 → sa.width = (Example.opened Example.fileMip5).m_topwidth ∧
        sa.height = (Example.opened Example.fileMip5).m_topheight)) ∧
    ([1, 3].map (fun k =>
        (seek_subimage (Example.opened Example.fileMip256) k ImageIOFormatSpec.default).map
          (fun res => (res.1, res.2.2.width, res.2.2.height)))) =
      [some (true, 128, 128), some (true, 32, 32)] ∧
    ([1, 2, 3].map (fun k =>
        (seek_subimage (Example.opened Example.fileMip5) k ImageIOFormatSpec.default).map
          (fun res => (res.1, res.2.2.width, res.2.2.height)))) =
      [some (true, 3, 3), some (true, 2, 2), some (true, 1, 1)] :=
  ⟨rfl, by decide, by decide, by decide,
    C6_mip_level_recurrence (Example.opened Example.fileMip5) [3] [0, 1] 2
      ImageIOFormatSpec.default ImageIOFormatSpec.default rfl (by decide) (by decide)
      (by decide) (by decide),
    rfl, rfl⟩

/-- C7: `seek_subimage (index)` returns false exactly when `index < 0` or
`index ≥ nsubimages`, and then nothing changes: the Reader (so
`current_subimage` and the stored spec) and the caller's spec are as before. -/
theorem C7_seek_out_of_range (r : Reader) (index : Int) (newspec : ImageIOFormatSpec) :
    ((∃ r1 s1, seek_subimage r index newspec = some (false, r1, s1)) ↔
      (index < 0 ∨ index ≥ r.m_nsubimages)) ∧
    (∀ r1 s1, seek_subimage r index newspec = some (false, r1, s1) ↔
      ((index < 0 ∨ index ≥ r.m_nsubimages) ∧ r1 = r ∧ s1 = newspec)) ∧
    (∀ r1 s1, seek_subimage r index newspec = some (false, r1, s1) →
      current_subimage r1 = current_subimage r ∧ r1.m_spec = r.m_spec) := by
  have key : ∀ r1 s1, seek_subimage r index newspec = some (false, r1, s1) ↔
      ((index < 0 ∨ index ≥ r.m_nsubimages) ∧ r1 = r ∧ s1 = newspec) := by
    intro r1 s1
    unfold seek_subimage
    by_cases hrange : index < 0 ∨ index ≥ r.m_nsubimages
    · rw [if_pos hrange]
      simp only [Option.some.injEq, Prod.mk.injEq, true_and, hrange]
      constructor
      · rintro ⟨h1, h2⟩
        exact ⟨h1.symm, h2.symm⟩
      · rintro ⟨h1, h2⟩
        exact ⟨h1.symm, h2.symm⟩
    · rw [if_neg hrange]
      dsimp only
      simp only [hrange, false_and, iff_false]
      by_cases h0 : index = 0 ∧ r.m_levelmode = ONE_LEVEL
      · rw [if_pos h0]
        simp
      · rw [if_neg h0]
        by_cases hm : r.m_levelmode = MIPMAP_LEVELS
        · rw [if_pos hm]
          simp
        · rw [if_neg hm]
          by_cases hr : r.m_levelmode = RIPMAP_LEVELS
          · rw [if_pos hr]
            simp
          · rw [if_neg hr]
            simp
  refine ⟨?_, key, ?_⟩
  · constructor
    · rintro ⟨r1, s1, h⟩
      exact ((key r1 s1).1 h).1
    · intro h
      exact ⟨r, newspec, (key r newspec).2 ⟨h, rfl, rfl⟩⟩
  · intro r1 s1 h
    obtain ⟨_, h1, _⟩ := (key r1 s1).1 h
    subst h1
    exact ⟨rfl, rfl⟩

/-- C7 at the opened 5x5 mipmapped file (4 subimages): `seek_subimage (-1)`
and `seek_subimage (4)` return false and leave the Reader as it was, with
`current_subimage () = 0`. -/
theorem C7_seek_out_of_range_witness :
    (Example.opened Example.fileMip5).m_nsubimages = 4 ∧
    current_subimage (Example.opened Example.fileMip5) = 0 ∧
    seek_subimage (Example.opened Example.fileMip5) (-1) ImageIOFormatSpec.default =
      some (false, Example.opened Example.fileMip5, ImageIOFormatSpec.default) ∧
    seek_subimage (Example.opened Example.fileMip5) 4 ImageIOFormatSpec.default =
      some (false, Example.opened Example.fileMip5, ImageIOFormatSpec.default) :=
  ⟨rfl, rfl,
    ((C7_seek_out_of_range (Example.opened Example.fileMip5) (-1)
      ImageIOFormatSpec.default).2.1 _ _).2 ⟨by decide, rfl, rfl⟩,
    ((C7_seek_out_of_range (Example.opened Example.fileMip5) 4
      ImageIOFormatSpec.default).2.1 _ _).2 ⟨by decide, rfl, rfl⟩⟩

/-! ## Spec builder and attribute translator -/

/-- The width, height and full height of a spec. -/
theorem add_parameter_geometry (s : ImageIOFormatSpec) (name : String) (v : ParamValue) :
    (s.add_parameter name v).width = s.width ∧ (s.add_parameter name v).height = s.height ∧
    (s.add_parameter name v).full_height = s.full_height := ⟨rfl, rfl, rfl⟩

theorem attributeStep_geometry (h : Header) (st : ImageIOFormatSpec × List String)
    (hit : String × Attribute) :
    (attributeStep h st hit).1.width = st.1.width ∧
    (attributeStep h st hit).1.height = st.1.height ∧
    (attributeStep h st hit).1.full_height = st.1.full_height := by
  unfold attributeStep
  cases attributeKey hit.1 with
  | none => exact ⟨rfl, rfl, rfl⟩
  | some oname =>
    cases attributeValue h hit.1 hit.2 with
    | none => exact ⟨rfl, rfl, rfl⟩
    | some v => exact ⟨rfl, rfl, rfl⟩

theorem attributeLoop_geometry (h : Header) (st : ImageIOFormatSpec × List String) :
    (attributeLoop h st).1.width = st.1.width ∧
    (attributeLoop h st).1.height = st.1.height ∧
    (attributeLoop h st).1.full_height = st.1.full_height := by
  unfold attributeLoop
  generalize h.attributes = l
  induction l generalizing st with
  | nil => exact ⟨rfl, rfl, rfl⟩
  | cons hit rest ih =>
    rw [List.foldl_cons]
    obtain ⟨a, b, c⟩ := ih (attributeStep h st hit)
    obtain ⟨a', b', c'⟩ := attributeStep_geometry h st hit
    exact ⟨a.trans a', b.trans b', c.trans c'⟩

theorem openEnvmap_geometry (r : Reader) (h : Header) (tiled : Bool) :
    (openEnvmap r h tiled).m_spec.width = r.m_spec.width ∧
    (openEnvmap r h tiled).m_spec.height = r.m_spec.height ∧
    (openEnvmap r h tiled).m_spec.full_height = r.m_spec.full_height := by
  unfold openEnvmap
  split
  · exact ⟨rfl, rfl, rfl⟩
  · split <;> exact ⟨rfl, rfl, rfl⟩

theorem openCompression_geometry (r : Reader) (h : Header) :
    (openCompression r h).m_spec.width = r.m_spec.width ∧
    (openCompression r h).m_spec.height = r.m_spec.height ∧
    (openCompression r h).m_spec.full_height = r.m_spec.full_height := by
  unfold openCompression
  split
  · split <;> exact ⟨rfl, rfl, rfl⟩
  · exact ⟨rfl, rfl, rfl⟩

theorem openLevels_geometry (r : Reader) (tiled : Bool) (file : ExrFile) :
    (openLevels r tiled file).m_spec = r.m_spec := by
  unfold openLevels
  split <;> rfl

theorem query_channels_geometry (r r1 : Reader) (channels : List String)
    (h : query_channels r channels = some r1) :
    r1.m_spec.width = r.m_spec.width ∧ r1.m_spec.height = r.m_spec.height ∧
    r1.m_spec.full_height = r.m_spec.full_height := by
  unfold query_channels at h
  dsimp only at h
  split_ifs at h
  cases h
  exact ⟨rfl, rfl, rfl⟩

/-- Every successful `open` reports `full_height` equal to the data-window
height, whatever the `envmap` attribute. -/
theorem open_full_height (r : Reader) (file : ExrFile) (newspec : ImageIOFormatSpec)
    (r1 : Reader) (s1 : ImageIOFormatSpec)
    (h : open_ r file newspec = some (true, r1, s1)) :
    s1.width = file.header.dataWindow.maxx - file.header.dataWindow.minx + 1 ∧
    s1.height = file.header.dataWindow.maxy - file.header.dataWindow.miny + 1 ∧
    s1.full_height = file.header.dataWindow.maxy - file.header.dataWindow.miny + 1 := by
  unfold open_ at h
  by_cases hex : file.isOpenExrFile = true
  · simp only [hex, Bool.not_true, Bool.false_eq_true, if_false] at h
    cases hthrow : file.openException with
    | some e => simp [hthrow] at h
    | none =>
      simp only [hthrow] at h
      cases htiled : file.tiled with
      | true =>
        simp only [htiled, if_true, Option.isNone_some, Bool.and_false,
          Bool.false_eq_true, if_false] at h
        split at h
        · simp at h
        · rename_i r2 hq
          simp only [Option.some.injEq, Prod.mk.injEq, true_and] at h
          obtain ⟨_, hs⟩ := h
          subst hs
          obtain ⟨a1, a2, a3⟩ := attributeLoop_geometry file.header
            ((openCompression (openEnvmap (openLevels r2 true file) file.header true)
              file.header).m_spec,
             (openCompression (openEnvmap (openLevels r2 true file) file.header true)
              file.header).cerr)
          obtain ⟨b1, b2, b3⟩ := openCompression_geometry
            (openEnvmap (openLevels r2 true file) file.header true) file.header
          obtain ⟨c1, c2, c3⟩ := openEnvmap_geometry (openLevels r2 true file) file.header true
          have d := openLevels_geometry r2 true file
          obtain ⟨e1, e2, e3⟩ := query_channels_geometry _ _ _ hq
          dsimp only at a1 a2 a3 ⊢
          rw [a1, a2, a3, b1, b2, b3, c1, c2, c3, d, e1, e2, e3]
          exact ⟨rfl, rfl, rfl⟩
      | false =>
        simp only [htiled, Bool.false_eq_true, if_false, Option.isNone_some, Bool.false_and,
          Bool.and_false] at h
        split at h
        · simp at h
        · rename_i r2 hq
          simp only [Option.some.injEq, Prod.mk.injEq, true_and] at h
          obtain ⟨_, hs⟩ := h
          subst hs
          obtain ⟨a1, a2, a3⟩ := attributeLoop_geometry file.header
            ((openCompression (openEnvmap (openLevels r2 false file) file.header false)
              file.header).m_spec,
             (openCompression (openEnvmap (openLevels r2 false file) file.header false)
              file.header).cerr)
          obtain ⟨b1, b2, b3⟩ := openCompression_geometry
            (openEnvmap (openLevels r2 false file) file.header false) file.header
          obtain ⟨c1, c2, c3⟩ := openEnvmap_geometry (openLevels r2 false file) file.header false
          have d := openLevels_geometry r2 false file
          obtain ⟨e1, e2, e3⟩ := query_channels_geometry _ _ _ hq
          dsimp only at a1 a2 a3 ⊢
          rw [a1, a2, a3, b1, b2, b3, c1, c2, c3, d, e1, e2, e3]
          exact ⟨rfl, rfl, rfl⟩
  · simp [hex] at h

/-- C8 (the code departs from the claim): `open` leaves `full_height` equal to
the data-window height for a cube-face file.  The 256x1536 cube-face file
opens with `textureformat = "CubeFace Environment"`, `up = "y"` and
`full_height = 1536`, where the claim has 256; `seek_subimage (0)` on the
mipmapped variant of the file does report `full_height = 256`.  (For every
file, `open_full_height` gives the same `full_height` after `open`.) -/
theorem C8_cubeface_full_height :
    (open_ Example.fresh Example.fileCube ImageIOFormatSpec.default).map
        (fun res => (res.1, res.2.1.m_cubeface, res.2.2.width, res.2.2.height,
          res.2.2.full_height, res.2.2.extra_params)) =
      some (true, true, 256, 1536, 1536,
        [("textureformat", .str "CubeFace Environment"), ("up", .str "y")]) ∧
    (open_ Example.fresh Example.fileCubeMip ImageIOFormatSpec.default).map
        (fun res => (res.1, res.2.1.m_cubeface, res.2.2.width, res.2.2.full_height)) =
      some (true, true, 256, 1536) ∧
    (seek_subimage (Example.opened Example.fileCubeMip) 0 ImageIOFormatSpec.default).map
        (fun res => (res.1, res.2.2.width, res.2.2.full_height)) =
      some (true, 256, 256) :=
  ⟨rfl, rfl, rfl⟩

/-- C9 (the code departs from the claim): the key emitted for `wrapmodes` is
`openexr_wrapmodes`.  The table maps `wrapmodes` to itself, so the test
`oname == name` adds the prefix as it does for a name outside the table. -/
theorem C9_wrapmodes_key :
    exr_tag_to_ooio_std "wrapmodes" = "wrapmodes" ∧
    attributeKey "wrapmodes" = some "openexr_wrapmodes" ∧
    (∀ (h : Header) (st : ImageIOFormatSpec × List String) (attrib : Attribute),
      attributeStep h st ("wrapmodes", attrib) =
        match attributeValue h "wrapmodes" attrib with
        | some v => (st.1.add_parameter "openexr_wrapmodes" v, st.2)
        | none => (st.1, st.2 ++
            ["  unknown attribute " ++ attrib.typeName ++ " " ++ "wrapmodes" ++ "\n"])) ∧
    (open_ Example.fresh Example.fileAttrs ImageIOFormatSpec.default).map
        (fun res => (res.1, res.2.2.extra_params)) =
      some (true, [("openexr_foo", .int 3), ("copyright", .str "me"),
        ("openexr_wrapmodes", .str "black,black")]) := by
  refine ⟨by decide, by decide, ?_, rfl⟩
  intro h st attrib
  have hk : attributeKey "wrapmodes" = some "openexr_wrapmodes" := by decide
  cases hv : attributeValue h "wrapmodes" attrib <;> simp [attributeStep, hk, hv]

theorem exr_tag_of_not_mem (name : String)
    (h : name ∉ StringMap.m_map.map Prod.fst) : exr_tag_to_ooio_std name = name := by
  have hl : StringMap.m_map.lookup name = none := by
    rw [List.lookup_eq_none_iff]
    intro p hp
    simp only [bne_iff_ne, ne_eq]
    intro hpe
    exact h (List.mem_map.2 ⟨p, hp, hpe.symm⟩)
  simp [exr_tag_to_ooio_std, hl]

theorem attributeKey_of_not_mem (name : String)
    (h : name ∉ StringMap.m_map.map Prod.fst) (hne : name ≠ "") :
    attributeKey name = some ("openexr_" ++ name) := by
  have hemp : name.isEmpty = false := by
    rw [Bool.eq_false_iff]
    intro he
    exact hne ((String.isEmpty_iff name).1 he)
  simp [attributeKey, exr_tag_of_not_mem name h, hemp]

/-- C13: from every Reader state `close` returns true and leaves both handles
and the cached header pointer null and `current_subimage () = -1`; a second
`close` changes nothing. -/
theorem C13_close_idempotent (r : Reader) :
    (close r).1 = true ∧
    (close r).2.m_input_scanline = none ∧
    (close r).2.m_input_tiled = none ∧
    (close r).2.m_header = none ∧
    current_subimage (close r).2 = -1 ∧
    close (close r).2 = close r :=
  ⟨rfl, rfl, rfl, rfl, rfl, rfl⟩

/-- C14 (the code departs from the claim): `m_channelnames` is only ever
appended to.  After `open`, `close`, `open` of the same four-channel file the
Reader has `nchannels = 4` and four entries in `m_userchannels`, but eight
entries in `m_channelnames`. -/
theorem C14_channelnames_accumulate :
    (run (Example.fresh, false)
        [.Open Example.fileRow1 ImageIOFormatSpec.default, .Close,
         .Open Example.fileRow1 ImageIOFormatSpec.default]).map
      (fun st => (st.2, st.1.m_spec.nchannels, st.1.m_userchannels.length,
        st.1.m_channelnames)) =
      some (true, 4, 4, ["A", "B", "G", "R", "A", "B", "G", "R"]) ∧
    (run (Example.fresh, false)
        [.Open Example.fileRow1 ImageIOFormatSpec.default]).map
      (fun st => (st.2, st.1.m_spec.nchannels, st.1.m_userchannels.length,
        st.1.m_channelnames)) =
      some (true, 4, 4, ["A", "B", "G", "R"]) :=
  ⟨rfl, rfl⟩

/-- C15: starting from an empty `m_spec.channelnames`, `query_channels` passes
its closing `ASSERT` for every file channel list: it returns, with as many
channel names as `nchannels`, the number of channels in the file. -/
theorem C15_assert_holds (r : Reader) (channels : List String)
    (h : r.m_spec.channelnames = []) :
    ∃ r1, query_channels r channels = some r1 ∧
      (r1.m_spec.channelnames.length : Int) = r1.m_spec.nchannels ∧
      r1.m_spec.nchannels = (channels.length : Int) := by
  refine ⟨_, query_channels_eq r channels h, ?_, rfl⟩
  show ((Spec.channelnames channels).length : Int) = (channels.length : Int)
  rw [Spec.channelnames, List.length_map, canonical_length]

/-- C15 on a fresh Reader and the channels B, G, R, Z, extra. -/
theorem C15_assert_holds_witness :
    Example.fresh.m_spec.channelnames = [] ∧
    ∃ r1, query_channels Example.fresh ["B", "G", "R", "Z", "extra"] = some r1 ∧
      (r1.m_spec.channelnames.length : Int) = r1.m_spec.nchannels ∧
      r1.m_spec.nchannels = ((["B", "G", "R", "Z", "extra"] : List String).length : Int) :=
  ⟨rfl, C15_assert_holds Example.fresh ["B", "G", "R", "Z", "extra"] rfl⟩

/-- C19 (the code departs from the claim): a channel chosen for a class is
listed under the canonical name of the class, not under its file name.  For
the file whose only channel is `Red`, `channelnames` is `["R"]`, the one slice
`read_native_scanline` inserts is named `R`, and the file has no channel of
that name. -/
theorem C19_slice_names :
    (query_channels Example.fresh ["Red"]).map (fun r => r.m_spec.channelnames) =
      some ["R"] ∧
    (read_native_scanline (Example.opened Example.fileRed) Example.bytes4x4 0 0 1000 none).map
        (fun sr => (sr.result, sr.frameBuffer.map Prod.fst)) = some (true, ["R"]) ∧
    Example.fileRed.header.channels = ["Red"] ∧
    "R" ∉ Example.fileRed.header.channels :=
  ⟨rfl, rfl, rfl, by decide⟩

/-! ## Handle invariant -/

theorem seek_subimage_handles (r : Reader) (index : Int) (newspec : ImageIOFormatSpec)
    (res : Bool × Reader × ImageIOFormatSpec) (h : seek_subimage r index newspec = some res) :
    res.2.1.m_input_scanline = r.m_input_scanline ∧
    res.2.1.m_input_tiled = r.m_input_tiled := by
  unfold seek_subimage at h
  by_cases hrange : index < 0 ∨ index ≥ r.m_nsubimages
  · rw [if_pos hrange] at h
    cases h
    exact ⟨rfl, rfl⟩
  · rw [if_neg hrange] at h
    dsimp only at h
    by_cases h0 : index = 0 ∧ r.m_levelmode = ONE_LEVEL
    · rw [if_pos h0] at h
      cases h
      exact ⟨rfl, rfl⟩
    · rw [if_neg h0] at h
      by_cases hm : r.m_levelmode = MIPMAP_LEVELS
      · rw [if_pos hm] at h
        cases h
        exact ⟨rfl, rfl⟩
      · rw [if_neg hm] at h
        by_cases hr : r.m_levelmode = RIPMAP_LEVELS
        · rw [if_pos hr] at h
          cases h
          exact ⟨rfl, rfl⟩
        · rw [if_neg hr] at h
          simp at h

theorem read_native_scanline_handles (r : Reader) (b : SpecBytes) (y z data : Int)
    (thrown : Option String) (sr : ScanlineRead)
    (h : read_native_scanline r b y z data thrown = some sr) :
    sr.reader.m_input_scanline = r.m_input_scanline ∧
    sr.reader.m_input_tiled = r.m_input_tiled := by
  unfold read_native_scanline at h
  cases hin : r.m_input_scanline with
  | none => simp [hin] at h
  | some f =>
    simp only [hin] at h
    cases hfb : insertSlices r.m_spec b (virtualBase r.m_spec b y data)
        r.m_spec.nchannels.toNat 0 [] with
    | none => simp [hfb] at h
    | some fb =>
      simp only [hfb] at h
      cases thrown <;> simp only [Option.some.injEq] at h <;> subst h <;>
        simp [error, hin]

theorem read_native_tile_handles (r : Reader) (b : SpecBytes) (x y z data : Int)
    (thrown : Option String) (tr : TileRead)
    (h : read_native_tile r b x y z data thrown = some tr) :
    tr.reader.m_input_scanline = r.m_input_scanline ∧
    tr.reader.m_input_tiled = r.m_input_tiled := by
  unfold read_native_tile at h
  cases hin : r.m_input_tiled with
  | none => simp [hin] at h
  | some f =>
    simp only [hin] at h
    cases hfb : insertSlices r.m_spec b (virtualBase r.m_spec b y data)
        r.m_spec.nchannels.toNat 0 [] with
    | none => simp [hfb] at h
    | some fb =>
      simp only [hfb] at h
      by_cases hz : r.m_spec.tile_width = 0 ∨ r.m_spec.tile_height = 0
      · simp [hz] at h
      · rw [if_neg hz] at h
        cases thrown <;> simp only [Option.some.injEq] at h <;> subst h <;>
          simp [error, hin]

theorem query_channels_handles (r r1 : Reader) (channels : List String)
    (h : query_channels r channels = some r1) :
    r1.m_input_scanline = r.m_input_scanline ∧ r1.m_input_tiled = r.m_input_tiled := by
  unfold query_channels at h
  dsimp only at h
  split_ifs at h
  cases h
  exact ⟨rfl, rfl⟩

theorem openLevels_handles (r : Reader) (tiled : Bool) (file : ExrFile) :
    (openLevels r tiled file).m_input_scanline = r.m_input_scanline ∧
    (openLevels r tiled file).m_input_tiled = r.m_input_tiled := by
  unfold openLevels
  split <;> exact ⟨rfl, rfl⟩

theorem openEnvmap_handles (r : Reader) (h : Header) (tiled : Bool) :
    (openEnvmap r h tiled).m_input_scanline = r.m_input_scanline ∧
    (openEnvmap r h tiled).m_input_tiled = r.m_input_tiled := by
  unfold openEnvmap
  split
  · exact ⟨rfl, rfl⟩
  · split <;> exact ⟨rfl, rfl⟩

theorem openCompression_handles (r : Reader) (h : Header) :
    (openCompression r h).m_input_scanline = r.m_input_scanline ∧
    (openCompression r h).m_input_tiled = r.m_input_tiled := by
  unfold openCompression
  split
  · split <;> exact ⟨rfl, rfl⟩
  · exact ⟨rfl, rfl⟩

/-- The handles after `open`: a failed call leaves both as they were, a
successful call sets the handle matching the file and leaves the other one
as it was. -/
theorem open_handles (r : Reader) (file : ExrFile) (newspec : ImageIOFormatSpec)
    (res : Bool × Reader × ImageIOFormatSpec) (h : open_ r file newspec = some res) :
    (res.1 = false → res.2.1.m_input_scanline = r.m_input_scanline ∧
      res.2.1.m_input_tiled = r.m_input_tiled) ∧
    (res.1 = true → file.tiled = true → res.2.1.m_input_scanline = r.m_input_scanline ∧
      res.2.1.m_input_tiled = some file) ∧
    (res.1 = true → file.tiled = false → res.2.1.m_input_scanline = some file ∧
      res.2.1.m_input_tiled = r.m_input_tiled) := by
  unfold open_ at h
  by_cases hex : file.isOpenExrFile = true
  · simp only [hex, Bool.not_true, Bool.false_eq_true, if_false] at h
    cases hthrow : file.openException with
    | some e =>
      simp only [hthrow, Option.some.injEq] at h
      subst h
      simp [error]
    | none =>
      simp only [hthrow] at h
      cases htiled : file.tiled with
      | true =>
        simp only [htiled, if_true, Option.isNone_some, Bool.and_false,
          Bool.false_eq_true, if_false] at h
        split at h
        · simp at h
        · rename_i r2 hq
          simp only [Option.some.injEq] at h
          subst h
          obtain ⟨b1, b2⟩ := openCompression_handles
            (openEnvmap (openLevels r2 true file) file.header true) file.header
          obtain ⟨c1, c2⟩ := openEnvmap_handles (openLevels r2 true file) file.header true
          obtain ⟨d1, d2⟩ := openLevels_handles r2 true file
          obtain ⟨e1, e2⟩ := query_channels_handles _ _ _ hq
          dsimp only
          rw [b1, b2, c1, c2, d1, d2, e1, e2]
          simp [openGeometry]
      | false =>
        simp only [htiled, Bool.false_eq_true, if_false, Option.isNone_some, Bool.false_and,
          Bool.and_false] at h
        split at h
        · simp at h
        · rename_i r2 hq
          simp only [Option.some.injEq] at h
          subst h
          obtain ⟨b1, b2⟩ := openCompression_handles
            (openEnvmap (openLevels r2 false file) file.header false) file.header
          obtain ⟨c1, c2⟩ := openEnvmap_handles (openLevels r2 false file) file.header false
          obtain ⟨d1, d2⟩ := openLevels_handles r2 false file
          obtain ⟨e1, e2⟩ := query_channels_handles _ _ _ hq
          dsimp only
          rw [b1, b2, c1, c2, d1, d2, e1, e2]
          simp [openGeometry]
  · simp only [hex, Bool.not_false, if_true, Option.some.injEq] at h
    subst h
    simp

/-- One call keeps the handle invariant, provided `open` is not called on an
Open Reader. -/
theorem step_handleInvariant (st st1 : Reader × Bool) (c : Call)
    (hinv : handleInvariant st = true)
    (hguard : ∀ file newspec, c = .Open file newspec → st.2 = false)
    (hstep : step st c = some st1) : handleInvariant st1 = true := by
  obtain ⟨r, o⟩ := st
  unfold step at hstep
  cases c with
  | Open file newspec =>
    have ho : o = false := hguard file newspec rfl
    subst ho
    simp only [handleInvariant, Bool.false_eq_true, if_false, Bool.and_eq_true,
      Option.isNone_iff_eq_none] at hinv
    simp only [Call.apply, Option.map_map, Option.map_eq_some'] at hstep
    obtain ⟨res, hres, hst⟩ := hstep
    subst hst
    obtain ⟨hf, ht, hs⟩ := open_handles r file newspec res hres
    simp only [Function.comp, Call.lifecycle, handleInvariant]
    cases hb : res.1 with
    | false =>
      obtain ⟨h1, h2⟩ := hf hb
      simp [h1, h2, hinv.1, hinv.2]
    | true =>
      cases htiled : file.tiled with
      | true =>
        obtain ⟨h1, h2⟩ := ht hb htiled
        simp [h1, h2, hinv.1]
      | false =>
        obtain ⟨h1, h2⟩ := hs hb htiled
        simp [h1, h2, hinv.2]
  | Close =>
    simp only [Call.apply, Option.map_some', Option.some.injEq] at hstep
    subst hstep
    simp [handleInvariant, Call.lifecycle, close, init]
  | Seek index newspec =>
    simp only [Call.apply, Option.map_map, Option.map_eq_some'] at hstep
    obtain ⟨res, hres, hst⟩ := hstep
    subst hst
    obtain ⟨h1, h2⟩ := seek_subimage_handles r index newspec res hres
    simp only [Function.comp, Call.lifecycle, handleInvariant, h1, h2]
    simpa [handleInvariant] using hinv
  | ReadScanline b y z data thrown =>
    simp only [Call.apply, Option.map_map, Option.map_eq_some'] at hstep
    obtain ⟨res, hres, hst⟩ := hstep
    subst hst
    obtain ⟨h1, h2⟩ := read_native_scanline_handles r b y z data thrown res hres
    simp only [Function.comp, Call.lifecycle, handleInvariant, h1, h2]
    simpa [handleInvariant] using hinv
  | ReadTile b x y z data thrown =>
    simp only [Call.apply, Option.map_map, Option.map_eq_some'] at hstep
    obtain ⟨res, hres, hst⟩ := hstep
    subst hst
    obtain ⟨h1, h2⟩ := read_native_tile_handles r b x y z data thrown res hres
    simp only [Function.comp, Call.lifecycle, handleInvariant, h1, h2]
    simpa [handleInvariant] using hinv

theorem run_handleInvariant (calls : List Call) (st st1 : Reader × Bool)
    (hinv : handleInvariant st = true)
    (hguard : opensOnlyWhenClosed st calls = true)
    (hrun : run st calls = some st1) : handleInvariant st1 = true := by
  induction calls generalizing st with
  | nil =>
    simp only [run, List.foldlM_nil] at hrun
    cases hrun
    exact hinv
  | cons c rest ih =>
    simp only [run, List.foldlM_cons] at hrun
    cases hs : step st c with
    | none => simp [hs] at hrun
    | some st2 =>
      simp only [hs, Option.bind_eq_bind, Option.some_bind] at hrun
      simp only [opensOnlyWhenClosed, hs, Bool.and_eq_true] at hguard
      refine ih st2 (step_handleInvariant st st2 c hinv ?_ hs) hguard.2 hrun
      intro file newspec hc
      subst hc
      simpa using hguard.1

/-- C12, as the code has it: from a freshly constructed Reader, along every
sequence of calls in which `open` is only called while the Reader is Closed,
after every call exactly one of the two handles is set when the Reader is
Open and neither is set when it is Closed. -/
theorem C12_handle_invariant (lm rm ns tw th : Int) (cf : Bool) (calls : List Call)
    (st : Reader × Bool)
    (hguard : opensOnlyWhenClosed (construct lm rm ns tw th cf, false) calls = true)
    (hrun : run (construct lm rm ns tw th cf, false) calls = some st) :
    handleInvariant st = true ∧
    (st.2 = true → (st.1.m_input_scanline.isSome = true ∧ st.1.m_input_tiled = none) ∨
      (st.1.m_input_scanline = none ∧ st.1.m_input_tiled.isSome = true)) ∧
    (st.2 = false → st.1.m_input_scanline = none ∧ st.1.m_input_tiled = none) := by
  have hinv := run_handleInvariant calls (construct lm rm ns tw th cf, false) st rfl hguard hrun
  refine ⟨hinv, ?_, ?_⟩
  · intro ho
    simp only [handleInvariant, ho, if_true] at hinv
    cases h1 : st.1.m_input_scanline <;> cases h2 : st.1.m_input_tiled <;>
      simp_all
  · intro ho
    simpa [handleInvariant, ho] using hinv

/-- C12 on the sequence open (scanline file), read a scanline, close, open
(tiled file), seek: the Reader ends Open with the tiled handle alone. -/
theorem C12_handle_invariant_witness :
    opensOnlyWhenClosed (construct 0 0 0 0 0 false, false)
      [.Open Example.fileRow1 ImageIOFormatSpec.default,
       .ReadScanline Example.bytes4x4 2 0 1000 none, .Close,
       .Open Example.fileTiled ImageIOFormatSpec.default,
       .Seek 0 ImageIOFormatSpec.default] = true ∧
    (∃ st, run (construct 0 0 0 0 0 false, false)
      [.Open Example.fileRow1 ImageIOFormatSpec.default,
       .ReadScanline Example.bytes4x4 2 0 1000 none, .Close,
       .Open Example.fileTiled ImageIOFormatSpec.default,
       .Seek 0 ImageIOFormatSpec.default] = some st ∧
      st.2 = true ∧ st.1.m_input_scanline = none ∧ st.1.m_input_tiled.isSome = true ∧
      handleInvariant st = true) :=
  ⟨rfl, _, rfl, rfl, rfl, rfl,
    (C12_handle_invariant 0 0 0 0 0 false
      [.Open Example.fileRow1 ImageIOFormatSpec.default,
       .ReadScanline Example.bytes4x4 2 0 1000 none, .Close,
       .Open Example.fileTiled ImageIOFormatSpec.default,
       .Seek 0 ImageIOFormatSpec.default] _ rfl rfl).1⟩

/-- C12, as stated, fails: `open` of a scanline file followed by `open` of a
tiled file, both successful, leaves both handles set. -/
theorem C12_reopen_counterexample :
    (run (Example.fresh, false)
        [.Open Example.fileRow1 ImageIOFormatSpec.default,
         .Open Example.fileTiled ImageIOFormatSpec.default]).map
      (fun st => (st.2, st.1.m_input_scanline.isSome, st.1.m_input_tiled.isSome,
        handleInvariant st)) =
      some (true, true, true, false) :=
  rfl

/-! ## Tie-break -/

/-- The last index satisfying `p` is what `Spec.lastIndexOf` returns. -/
theorem lastIndexOf_of_last (p : String → Bool) (l : List String) (j : Nat) (x : String)
    (hj : l[j]? = some x) (hp : p x = true)
    (hlast : ∀ j1 y, j < j1 → l[j1]? = some y → p y = false) :
    Spec.lastIndexOf p l = some j := by
  induction l generalizing j with
  | nil => simp at hj
  | cons a rest ih =>
    cases j with
    | zero =>
      simp only [List.getElem?_cons_zero, Option.some.injEq] at hj
      subst hj
      have hnone : Spec.lastIndexOf p rest = none := by
        cases hr : Spec.lastIndexOf p rest with
        | none => rfl
        | some k =>
          obtain ⟨y, hy, hpy⟩ := lastIndexOf_some p rest k hr
          have := hlast (k + 1) y (by omega) (by simpa using hy)
          rw [this] at hpy
          exact absurd hpy (by simp)
      simp [Spec.lastIndexOf, hnone, hp]
    | succ k =>
      have hk : rest[k]? = some x := by simpa using hj
      have := ih k hk (fun j1 y h1 h2 => hlast (j1 + 1) y (by omega) (by simpa using h2))
      simp [Spec.lastIndexOf, this]

/-- A channel listed in the canonical order under a name is found in
`channelnames` under that name, at the position `user_index` gives it. -/
theorem canonical_lookup (channels : List String) (i : Nat) (nm : String)
    (h : (i, nm) ∈ Spec.canonical channels) :
    (Spec.channelnames channels)[((Spec.canonical channels).map Prod.fst).indexOf i]? =
      some nm := by
  obtain ⟨k, hk, hget⟩ := List.getElem_of_mem h
  have hk1 : k < ((Spec.canonical channels).map Prod.fst).length := by simpa using hk
  have hfst : ((Spec.canonical channels).map Prod.fst)[k] = i := by simp [hget]
  have hidx := List.indexOf_getElem (canonical_nodup channels) k hk1
  rw [hfst] at hidx
  rw [hidx, Spec.channelnames, List.getElem?_map, List.getElem?_eq_getElem hk, hget]
  rfl

theorem user_index_getElem? (channels : List String) (i : Nat) (hi : i < channels.length) :
    (Spec.user_index channels)[i]? =
      some ((((Spec.canonical channels).map Prod.fst).indexOf i : Nat) : Int) := by
  simp [Spec.user_index, List.getElem?_map, List.getElem?_range, hi]

theorem indexOf_lt_of_sorted (l : List Nat) (hs : l.Pairwise (· < ·)) (a b : Nat)
    (ha : a ∈ l) (hb : b ∈ l) (hab : a < b) : l.indexOf a < l.indexOf b := by
  induction l with
  | nil => simp at ha
  | cons x xs ih =>
    rw [List.pairwise_cons] at hs
    by_cases hax : a = x
    · subst hax
      have hbx : a ≠ b := by omega
      rw [List.indexOf_cons_self, List.indexOf_cons_ne _ hbx]
      omega
    · have ha1 : a ∈ xs := by
        rcases List.mem_cons.1 ha with h | h
        · exact absurd h hax
        · exact h
      have hbx : b ≠ x := by
        intro h
        subst h
        have := hs.1 a ha1
        omega
      have hb1 : b ∈ xs := by
        rcases List.mem_cons.1 hb with h | h
        · exact absurd h hbx
        · exact h
      rw [List.indexOf_cons_ne _ (fun h => hax h.symm),
        List.indexOf_cons_ne _ (fun h => hbx h.symm)]
      have := ih hs.2 ha1 hb1
      omega

theorem rest_sorted (channels : List String) :
    ((Spec.rest channels).map Prod.fst).Pairwise (· < ·) := by
  rw [rest_map_fst]
  exact (List.pairwise_lt_range _).filter _

theorem canonical_map_fst (channels : List String) :
    (Spec.canonical channels).map Prod.fst =
      (Spec.chosen channels).map Prod.fst ++ (Spec.rest channels).map Prod.fst := by
  simp [Spec.canonical]

/-- A channel is chosen for a class exactly when its position in the
canonical order is below the number of classes found. -/
theorem indexOf_canonical_lt (channels : List String) (i : Nat) :
    ((Spec.canonical channels).map Prod.fst).indexOf i < (Spec.chosen channels).length ↔
      i ∈ (Spec.chosen channels).map Prod.fst := by
  rw [canonical_map_fst]
  constructor
  · intro h
    by_contra hnot
    rw [List.indexOf_append_of_not_mem hnot] at h
    simp at h
  · intro h
    rw [List.indexOf_append_of_mem h]
    have := List.indexOf_lt_length.2 h
    simpa using this

theorem mem_rest (channels : List String) (i : Nat) (nm : String)
    (h : channels[i]? = some nm) (hnot : i ∉ (Spec.chosen channels).map Prod.fst) :
    (i, nm) ∈ Spec.rest channels := by
  simp only [Spec.rest, List.mem_filter, decide_eq_true_eq]
  exact ⟨List.mk_mem_enum_iff_getElem?.2 h, hnot⟩

/-- C16: when several channels match one class, the one latest in file order
gets the class's canonical slot (its `m_userchannels` entry is a position
among the classes found, where `channelnames` holds the canonical name), and
every earlier matching channel is placed after the classes found, under its
own file name; the channels placed after the classes found keep their file
order. -/
theorem C16_tie_break (lm rm ns tw th : Int) (cf : Bool) (channels : List String)
    (cls : String × List String) (j : Nat) (nameJ : String)
    (hcls : cls ∈ Spec.classes)
    (hj : channels[j]? = some nameJ)
    (hmatch : Spec.matchesClass cls.2 nameJ = true)
    (hlast : ∀ j1 name1, j < j1 → channels[j1]? = some name1 →
      Spec.matchesClass cls.2 name1 = false) :
    ∃ r, query_channels (construct lm rm ns tw th cf) channels = some r ∧
      (∃ u : Nat, r.m_userchannels[j]? = some (u : Int) ∧
        r.m_spec.channelnames[u]? = some cls.1 ∧ u < (Spec.chosen channels).length) ∧
      (∀ i nameI, i < j → channels[i]? = some nameI →
        Spec.matchesClass cls.2 nameI = true →
        ∃ u : Nat, r.m_userchannels[i]? = some (u : Int) ∧
          r.m_spec.channelnames[u]? = some nameI ∧ (Spec.chosen channels).length ≤ u) ∧
      (∀ (i i1 u u1 : Nat), i < i1 →
        r.m_userchannels[i]? = some (u : Int) → r.m_userchannels[i1]? = some (u1 : Int) →
        (Spec.chosen channels).length ≤ u → (Spec.chosen channels).length ≤ u1 → u < u1) := by
  refine ⟨_, query_channels_eq _ channels (fresh_channelnames lm rm ns tw th cf), ?_, ?_, ?_⟩
  · have hjlt : j < channels.length := (List.getElem?_eq_some_iff.1 hj).1
    have hl := lastIndexOf_of_last _ channels j nameJ hj hmatch hlast
    have hmem : (j, cls.1) ∈ Spec.chosen channels := by
      simp only [Spec.chosen, List.mem_filterMap]
      exact ⟨cls, hcls, by simp [hl]⟩
    have hmemc : (j, cls.1) ∈ Spec.canonical channels := List.mem_append_left _ hmem
    refine ⟨_, user_index_getElem? channels j hjlt, canonical_lookup channels j _ hmemc, ?_⟩
    exact (indexOf_canonical_lt channels j).2 (List.mem_map.2 ⟨_, hmem, rfl⟩)
  · intro i nameI hij hi hmi
    have hilt : i < channels.length := (List.getElem?_eq_some_iff.1 hi).1
    have hl := lastIndexOf_of_last _ channels j nameJ hj hmatch hlast
    have hnot : i ∉ (Spec.chosen channels).map Prod.fst := by
      intro hc
      rw [chosen_map_fst] at hc
      obtain ⟨c1, hc1, he⟩ := List.mem_filterMap.1 hc
      obtain ⟨x, hx, hpx⟩ := lastIndexOf_some _ _ _ he
      rw [hi] at hx
      simp only [Option.some.injEq] at hx
      subst hx
      have hsame : c1 = cls := by
        by_contra hne
        rw [matchesClass_iff] at hpx hmi
        exact classes_disjoint c1 hc1 cls hcls hne _ hpx hmi
      subst hsame
      rw [hl] at he
      simp only [Option.some.injEq] at he
      omega
    have hmemc : (i, nameI) ∈ Spec.canonical channels :=
      List.mem_append_right _ (mem_rest channels i nameI hi hnot)
    refine ⟨_, user_index_getElem? channels i hilt, canonical_lookup channels i _ hmemc, ?_⟩
    by_contra hlt
    exact hnot ((indexOf_canonical_lt channels i).1 (by omega))
  · intro i i1 u u1 hii hu hu1 hge hge1
    have key : ∀ (a v : Nat), (Spec.user_index channels)[a]? = some (v : Int) →
        (Spec.chosen channels).length ≤ v →
        a ∈ (Spec.rest channels).map Prod.fst ∧
        v = (Spec.chosen channels).length + ((Spec.rest channels).map Prod.fst).indexOf a := by
      intro a v hv hgev
      have halt : a < channels.length := by
        have := (List.getElem?_eq_some_iff.1 hv).1
        simpa [Spec.user_index] using this
      rw [user_index_getElem? channels a halt] at hv
      simp only [Option.some.injEq, Nat.cast_inj] at hv
      have hnot : a ∉ (Spec.chosen channels).map Prod.fst := by
        intro hc
        have := (indexOf_canonical_lt channels a).2 hc
        omega
      have hmem : a ∈ (Spec.canonical channels).map Prod.fst := mem_canonical channels a halt
      rw [canonical_map_fst] at hmem hv
      rw [List.indexOf_append_of_not_mem hnot] at hv
      refine ⟨?_, by simpa using hv.symm⟩
      rcases List.mem_append.1 hmem with h | h
      · exact absurd h hnot
      · exact h
    obtain ⟨m, e⟩ := key i u hu hge
    obtain ⟨m1, e1⟩ := key i1 u1 hu1 hge1
    have := indexOf_lt_of_sorted _ (rest_sorted channels) i i1 m m1 hii
    omega

/-- C16 on the file order R, x, Red: Red (index 2) gets the slot of the class
R, and the earlier R (index 0) follows under its own name. -/
theorem C16_tie_break_witness :
    (query_channels (construct 0 0 0 0 0 false) ["R", "x", "Red"]).map
        (fun r => (r.m_spec.channelnames, r.m_userchannels)) =
      some (["R", "R", "x"], [1, 2, 0]) ∧
    ∃ r, query_channels (construct 0 0 0 0 0 false) ["R", "x", "Red"] = some r ∧
      (∃ u : Nat, r.m_userchannels[2]? = some (u : Int) ∧
        r.m_spec.channelnames[u]? = some "R" ∧
        u < (Spec.chosen ["R", "x", "Red"]).length) ∧
      (∀ i nameI, i < 2 → (["R", "x", "Red"] : List String)[i]? = some nameI →
        Spec.matchesClass ["R", "Red"] nameI = true →
        ∃ u : Nat, r.m_userchannels[i]? = some (u : Int) ∧
          r.m_spec.channelnames[u]? = some nameI ∧
          (Spec.chosen ["R", "x", "Red"]).length ≤ u) ∧
      (∀ (i i1 u u1 : Nat), i < i1 →
        r.m_userchannels[i]? = some (u : Int) → r.m_userchannels[i1]? = some (u1 : Int) →
        (Spec.chosen ["R", "x", "Red"]).length ≤ u →
        (Spec.chosen ["R", "x", "Red"]).length ≤ u1 → u < u1) :=
  ⟨rfl, C16_tie_break 0 0 0 0 0 false ["R", "x", "Red"] ("R", ["R", "Red"]) 2 "Red"
    (by decide) rfl (by decide)
    (fun j1 name1 h1 h2 => by
      have : j1 < 3 := (List.getElem?_eq_some_iff.1 h2).1
      omega)⟩

/-! ## Case rule -/

theorem toNat_ofNat_small (k : Nat) (h : k < 55296) : (Char.ofNat k).toNat = k := by
  have hv : k.isValidChar := Or.inl h
  simp only [Char.ofNat, hv, dite_true, Char.ofNatAux, Char.toNat]
  rfl

theorem toUpper_toNat (c : Char) :
    (Char.toUpper c).toNat =
      if 97 ≤ c.toNat ∧ c.toNat ≤ 122 then c.toNat - 32 else c.toNat := by
  unfold Char.toUpper
  simp only [ge_iff_le]
  split_ifs with h
  · exact toNat_ofNat_small _ (by omega)
  · rfl

theorem char_eq_iff (c d : Char) : c = d ↔ c.toNat = d.toNat := by
  constructor
  · intro h
    rw [h]
  · intro h
    have := congrArg Char.ofNat h
    simpa using this

theorem isUpper_iff (c : Char) : c.isUpper = true ↔ 65 ≤ c.toNat ∧ c.toNat ≤ 90 := by
  simp only [Char.isUpper, Bool.and_eq_true, decide_eq_true_eq, ge_iff_le, Char.toNat]
  constructor
  · rintro ⟨h1, h2⟩
    exact ⟨h1, h2⟩
  · rintro ⟨h1, h2⟩
    exact ⟨h1, h2⟩

/-- Two characters have the same upper-case form exactly when they are the
same letter in the sense of the specification. -/
theorem toUpper_eq_iff (c d : Char) :
    Char.toUpper c = Char.toUpper d ↔ Spec.sameLetter c d = true := by
  rw [char_eq_iff, toUpper_toNat, toUpper_toNat]
  simp only [Spec.sameLetter, Bool.or_eq_true, Bool.and_eq_true, beq_iff_eq, isUpper_iff,
    char_eq_iff c d]
  split_ifs <;> omega

theorem map_eq_map_iff_zip {α β : Type} (f : α → β) (a b : List α) :
    a.map f = b.map f ↔ a.length = b.length ∧ ∀ p ∈ a.zip b, f p.1 = f p.2 := by
  induction a generalizing b with
  | nil =>
    cases b with
    | nil => simp
    | cons y ys => simp
  | cons x xs ih =>
    cases b with
    | nil => simp
    | cons y ys =>
      simp only [List.map_cons, List.cons.injEq, ih, List.length_cons, add_left_inj,
        List.zip_cons_cons, List.mem_cons, forall_eq_or_imp]
      tauto

/-- The comparison of the code is equality ignoring ASCII case. -/
theorem iequals_eq (a b : String) : iequals a b = Spec.equalsIgnoringCase a b := by
  rw [Bool.eq_iff_iff]
  simp only [iequals, beq_iff_eq, Spec.equalsIgnoringCase, Bool.and_eq_true, List.all_eq_true,
    map_eq_map_iff_zip, toUpper_eq_iff]
  rfl

/-- C17: `query_channels` classifies a channel name as R, G, B, A or Z exactly
when the name equals, ignoring ASCII case, one of R/Red, G/Green, B/Blue,
A/Alpha, Z; the channel `z` is classified as Z and listed as `Z`. -/
theorem C17_case_insensitive :
    (∀ (name : String) (c : Int) (s : ChanIdx),
      (classify name c s).red =
        (if Spec.equalsIgnoringCase name "R" || Spec.equalsIgnoringCase name "Red"
          then c else s.red) ∧
      (classify name c s).green =
        (if Spec.equalsIgnoringCase name "G" || Spec.equalsIgnoringCase name "Green"
          then c else s.green) ∧
      (classify name c s).blue =
        (if Spec.equalsIgnoringCase name "B" || Spec.equalsIgnoringCase name "Blue"
          then c else s.blue) ∧
      (classify name c s).alpha =
        (if Spec.equalsIgnoringCase name "A" || Spec.equalsIgnoringCase name "Alpha"
          then c else s.alpha) ∧
      (classify name c s).zee =
        (if Spec.equalsIgnoringCase name "Z" then c else s.zee)) ∧
    Spec.equalsIgnoringCase "z" "Z" = true ∧
    (classify "z" 0 ⟨-1, -1, -1, -1, -1⟩).zee = 0 ∧
    (query_channels Example.fresh ["z", "gReEn"]).map
        (fun r => (r.m_spec.channelnames, r.m_userchannels)) =
      some (["G", "Z"], [1, 0]) := by
  refine ⟨?_, by decide, by decide, rfl⟩
  intro name c s
  rw [classify_red, classify_green, classify_blue, classify_alpha, classify_zee]
  simp [Spec.matchesClass, iequals_eq]

/-! ## Closed form of the level sizes -/

theorem floor_div_pow (W : Int) (k : Nat) : ⌊(W : ℚ) / 2 ^ k⌋ = W / 2 ^ k := by
  have h := Rat.floor_intCast_div_natCast W (2 ^ k)
  push_cast at h
  exact h

theorem ceil_div_pow (W : Int) (k : Nat) : ⌈(W : ℚ) / 2 ^ k⌉ = -((-W) / 2 ^ k) := by
  have h := floor_div_pow (-W) k
  have h2 : ((-W : Int) : ℚ) / 2 ^ k = -((W : ℚ) / 2 ^ k) := by
    push_cast
    ring
  rw [h2, Int.floor_neg] at h
  omega

theorem ediv_ediv_two (m b : Int) (hb : 0 < b) : m / b / 2 = m / (b * 2) := by
  have h1 := Int.emod_add_ediv m b
  have h2 := Int.emod_add_ediv (m / b) 2
  have r1a := Int.emod_nonneg m (ne_of_gt hb)
  have r1b := Int.emod_lt_of_pos m hb
  have r2a := Int.emod_nonneg (m / b) (by norm_num : (2 : Int) ≠ 0)
  have r2b := Int.emod_lt_of_pos (m / b) (by norm_num : (0 : Int) < 2)
  have key := (Int.ediv_emod_unique (a := m) (b := b * 2) (q := m / b / 2)
    (r := b * (m / b % 2) + m % b) (by omega)).2
  refine (key ⟨?_, ?_, ?_⟩).1.symm
  · linear_combination h1 + b * h2
  · have : 0 ≤ b * (m / b % 2) := mul_nonneg hb.le r2a
    omega
  · have : b * (m / b % 2) ≤ b * 1 := mul_le_mul_of_nonneg_left (by omega) hb.le
    omega

theorem mipLoop_succ_fst (rm : Int) (n : Nat) (wh : Int × Int) :
    (mipLoop rm (n + 1) wh).1 = halve rm (mipLoop rm n wh).1 := by
  rw [mipLoop_succ]

theorem mipLoop_succ_snd (rm : Int) (n : Nat) (wh : Int × Int) :
    (mipLoop rm (n + 1) wh).2 = halve rm (mipLoop rm n wh).2 := by
  rw [mipLoop_succ]

theorem halve_down (rm q : Int) (hrm : rm ≠ ROUND_UP) (hq : 0 ≤ q) :
    halve rm (max 1 q) = max 1 (q / 2) := by
  rw [halve_eq _ _ (le_max_left _ _)]
  simp only [Spec.half, hrm, and_false, if_false]
  omega

theorem halve_up (c : Int) :
    halve ROUND_UP (max 1 c) = max 1 (-((-c) / 2)) := by
  rw [halve_eq _ _ (le_max_left _ _)]
  simp only [Spec.half, and_true]
  split_ifs <;> omega

theorem halve_le (rm d : Int) (hd : 1 ≤ d) : halve rm d ≤ d := by
  rw [halve_eq _ _ hd]
  simp only [Spec.half]
  split_ifs <;> omega

/-- The halving loop under a rounding mode other than `ROUND_UP`. -/
theorem iterate_down (rm : Int) (hrm : rm ≠ ROUND_UP) (W : Int) (hW : 1 ≤ W) (k : Nat)
    (d : Int × Int → Int)
    (hd : ∀ n wh, d (mipLoop rm (n + 1) wh) = halve rm (d (mipLoop rm n wh)))
    (wh : Int × Int) (h0 : d wh = W) :
    d (mipLoop rm k wh) = max 1 (W / 2 ^ k) := by
  induction k with
  | zero =>
    show d wh = _
    rw [h0]
    simp only [pow_zero, Int.ediv_one]
    omega
  | succ n ih =>
    have hq : 0 ≤ W / 2 ^ n := Int.ediv_nonneg (by omega) (by positivity)
    rw [hd, ih, halve_down rm _ hrm hq, pow_succ, ediv_ediv_two _ _ (by positivity)]

/-- The halving loop under `ROUND_UP`. -/
theorem iterate_up (W : Int) (hW : 1 ≤ W) (k : Nat)
    (d : Int × Int → Int)
    (hd : ∀ n wh, d (mipLoop ROUND_UP (n + 1) wh) = halve ROUND_UP (d (mipLoop ROUND_UP n wh)))
    (wh : Int × Int) (h0 : d wh = W) :
    d (mipLoop ROUND_UP k wh) = max 1 (-((-W) / 2 ^ k)) := by
  induction k with
  | zero =>
    show d wh = _
    rw [h0]
    simp only [pow_zero, Int.ediv_one]
    omega
  | succ n ih =>
    rw [hd, ih, halve_up, neg_neg, pow_succ, ediv_ediv_two _ _ (by positivity)]

/-- C18: for top dimensions at least 1 and every level `k`, the halving loop
of `seek_subimage` computes `max (1, floor (W / 2^k))` under `ROUND_DOWN` and
`max (1, ceil (W / 2^k))` under `ROUND_UP`, for the width and for the height;
under every rounding mode the result is at least 1 and does not grow with
`k`. -/
theorem C18_level_closed_form (W H : Int) (k : Nat) (hW : 1 ≤ W) (hH : 1 ≤ H) :
    (mipLoop ROUND_DOWN k (W, H)).1 = Spec.levelFloor W k ∧
    (mipLoop ROUND_DOWN k (W, H)).2 = Spec.levelFloor H k ∧
    (mipLoop ROUND_UP k (W, H)).1 = Spec.levelCeil W k ∧
    (mipLoop ROUND_UP k (W, H)).2 = Spec.levelCeil H k ∧
    (∀ rm : Int, 1 ≤ (mipLoop rm k (W, H)).1 ∧ 1 ≤ (mipLoop rm k (W, H)).2 ∧
      (mipLoop rm (k + 1) (W, H)).1 ≤ (mipLoop rm k (W, H)).1 ∧
      (mipLoop rm (k + 1) (W, H)).2 ≤ (mipLoop rm k (W, H)).2) := by
  have hne : ROUND_DOWN ≠ ROUND_UP := by decide
  refine ⟨?_, ?_, ?_, ?_, ?_⟩
  · rw [Spec.levelFloor, floor_div_pow]
    exact iterate_down ROUND_DOWN hne W hW k Prod.fst (mipLoop_succ_fst _) (W, H) rfl
  · rw [Spec.levelFloor, floor_div_pow]
    exact iterate_down ROUND_DOWN hne H hH k Prod.snd (mipLoop_succ_snd _) (W, H) rfl
  · rw [Spec.levelCeil, ceil_div_pow]
    exact iterate_up W hW k Prod.fst (mipLoop_succ_fst _) (W, H) rfl
  · rw [Spec.levelCeil, ceil_div_pow]
    exact iterate_up H hH k Prod.snd (mipLoop_succ_snd _) (W, H) rfl
  · intro rm
    obtain ⟨p1, p2⟩ := mipLoop_pos rm k (W, H) hW hH
    refine ⟨p1, p2, ?_, ?_⟩
    · rw [mipLoop_succ_fst]
      exact halve_le _ _ p1
    · rw [mipLoop_succ_snd]
      exact halve_le _ _ p2

/-- C18 at the top size 5x7 and level 2. -/
theorem C18_level_closed_form_witness :
    (1 : Int) ≤ 5 ∧ (1 : Int) ≤ 7 ∧
    (mipLoop ROUND_DOWN 2 (5, 7)).1 = Spec.levelFloor 5 2 ∧
    (mipLoop ROUND_DOWN 2 (5, 7)).2 = Spec.levelFloor 7 2 ∧
    (mipLoop ROUND_UP 2 (5, 7)).1 = Spec.levelCeil 5 2 ∧
    (mipLoop ROUND_UP 2 (5, 7)).2 = Spec.levelCeil 7 2 ∧
    (∀ rm : Int, 1 ≤ (mipLoop rm 2 (5, 7)).1 ∧ 1 ≤ (mipLoop rm 2 (5, 7)).2 ∧
      (mipLoop rm (2 + 1) (5, 7)).1 ≤ (mipLoop rm 2 (5, 7)).1 ∧
      (mipLoop rm (2 + 1) (5, 7)).2 ≤ (mipLoop rm 2 (5, 7)).2) :=
  ⟨by decide, by decide, C18_level_closed_form 5 7 2 (by decide) (by decide)⟩

/-! ## Distinct metadata keys -/

theorem prefix_cancel (a b : String) (h : "openexr_" ++ a = "openexr_" ++ b) : a = b := by
  have := congrArg String.data h
  simp only [String.data_append, List.append_cancel_left_eq] at this
  exact String.ext this

theorem ne_prefixed (t n : String) (ht : t.data.head? ≠ some 'o') : t ≠ "openexr_" ++ n := by
  intro h
  apply ht
  rw [h, String.data_append]
  rfl

/-- The key of an attribute that is not skipped is either one of the five
renames or the name with the prefix. -/
theorem attributeKey_cases (name k : String) (h : attributeKey name = some k) :
    (name, k) ∈ [("cameraTransform", "worldtocamera"), ("capDate", "datetime"),
      ("comments", "description"), ("owner", "copyright"),
      ("pixelAspectRatio", "pixelaspectratio")] ∨ k = "openexr_" ++ name := by
  by_cases hmem : name ∈ StringMap.m_map.map Prod.fst
  · simp only [StringMap.m_map, List.map_cons, List.map_nil, List.mem_cons, List.mem_singleton,
      List.not_mem_nil, or_false] at hmem
    rcases hmem with e | e | e | e | e | e | e | e | e | e | e | e <;> subst e
    · have hk : attributeKey "cameraTransform" = some "worldtocamera" := by decide
      rw [hk] at h; cases h; simp
    · have hk : attributeKey "capDate" = some "datetime" := by decide
      rw [hk] at h; cases h; simp
    · have hk : attributeKey "comments" = some "description" := by decide
      rw [hk] at h; cases h; simp
    · have hk : attributeKey "owner" = some "copyright" := by decide
      rw [hk] at h; cases h; simp
    · have hk : attributeKey "pixelAspectRatio" = some "pixelaspectratio" := by decide
      rw [hk] at h; cases h; simp
    · have hk : attributeKey "wrapmodes" = some "openexr_wrapmodes" := by decide
      rw [hk] at h; cases h
      right; decide
    · have hk : attributeKey "channels" = none := by decide
      rw [hk] at h; cases h
    · have hk : attributeKey "compression" = none := by decide
      rw [hk] at h; cases h
    · have hk : attributeKey "dataWindow" = none := by decide
      rw [hk] at h; cases h
    · have hk : attributeKey "envmap" = none := by decide
      rw [hk] at h; cases h
    · have hk : attributeKey "tiledesc" = none := by decide
      rw [hk] at h; cases h
    · have hk : attributeKey "lineOrder" = none := by decide
      rw [hk] at h; cases h
  · by_cases hne : name = ""
    · subst hne
      have hk : attributeKey "" = none := by decide
      rw [hk] at h; cases h
    · rw [attributeKey_of_not_mem name hmem hne] at h
      cases h
      exact Or.inr rfl

theorem rename_target_head (name k : String)
    (h : (name, k) ∈ [("cameraTransform", "worldtocamera"), ("capDate", "datetime"),
      ("comments", "description"), ("owner", "copyright"),
      ("pixelAspectRatio", "pixelaspectratio")]) : k.data.head? ≠ some 'o' := by
  simp only [List.mem_cons, Prod.mk.injEq, List.mem_singleton, List.not_mem_nil, or_false] at h
  rcases h with ⟨_, e⟩ | ⟨_, e⟩ | ⟨_, e⟩ | ⟨_, e⟩ | ⟨_, e⟩ <;> subst e <;> decide

/-- Two attribute names with the same key are the same name. -/
theorem attributeKey_inj (n1 n2 k : String) (h1 : attributeKey n1 = some k)
    (h2 : attributeKey n2 = some k) : n1 = n2 := by
  rcases attributeKey_cases n1 k h1 with r1 | p1 <;>
    rcases attributeKey_cases n2 k h2 with r2 | p2
  · simp only [List.mem_cons, Prod.mk.injEq, List.mem_singleton, List.not_mem_nil,
      or_false] at r1 r2
    rcases r1 with ⟨a, e⟩ | ⟨a, e⟩ | ⟨a, e⟩ | ⟨a, e⟩ | ⟨a, e⟩ <;> subst a <;> subst e <;>
      rcases r2 with ⟨b, e2⟩ | ⟨b, e2⟩ | ⟨b, e2⟩ | ⟨b, e2⟩ | ⟨b, e2⟩ <;> subst b <;>
      first
        | rfl
        | exact absurd e2 (by decide)
  · exact absurd p2 (ne_prefixed k n2 (rename_target_head n1 k r1))
  · exact absurd p1 (ne_prefixed k n1 (rename_target_head n2 k r2))
  · exact prefix_cancel n1 n2 (p1.symm.trans p2)

/-- No attribute key is one of the keys the spec builder adds itself. -/
theorem attributeKey_not_builder (name k : String) (h : attributeKey name = some k) :
    k ∉ ["textureformat", "up", "compression"] := by
  intro hk
  simp only [List.mem_cons, List.mem_singleton, List.not_mem_nil, or_false] at hk
  rcases attributeKey_cases name k h with r | p
  · simp only [List.mem_cons, Prod.mk.injEq, List.mem_singleton, List.not_mem_nil,
      or_false] at r
    rcases r with ⟨_, e⟩ | ⟨_, e⟩ | ⟨_, e⟩ | ⟨_, e⟩ | ⟨_, e⟩ <;> subst e <;>
      rcases hk with e2 | e2 | e2 <;> exact absurd e2 (by decide)
  · rcases hk with e | e | e <;> subst e
    · exact ne_prefixed "textureformat" name (by decide) p
    · exact ne_prefixed "up" name (by decide) p
    · exact ne_prefixed "compression" name (by decide) p

theorem attributeStep_params (h : Header) (st : ImageIOFormatSpec × List String)
    (hit : String × Attribute) :
    (attributeStep h st hit).1.extra_params =
      st.1.extra_params ++ attributeParams h [hit] := by
  unfold attributeStep attributeParams
  cases hk : attributeKey hit.1 with
  | none => simp [hk]
  | some key =>
    cases hv : attributeValue h hit.1 hit.2 with
    | none => simp [hk, hv]
    | some v => simp [hk, hv, ImageIOFormatSpec.add_parameter]

theorem attributeParams_cons (h : Header) (hit : String × Attribute)
    (l : List (String × Attribute)) :
    attributeParams h (hit :: l) = attributeParams h [hit] ++ attributeParams h l := by
  unfold attributeParams
  rw [← List.filterMap_append]
  rfl

theorem foldl_attributeStep_params (h : Header) (l : List (String × Attribute))
    (st : ImageIOFormatSpec × List String) :
    (l.foldl (attributeStep h) st).1.extra_params =
      st.1.extra_params ++ attributeParams h l := by
  induction l generalizing st with
  | nil => simp [attributeParams]
  | cons hit rest ih =>
    rw [List.foldl_cons, ih, attributeStep_params, attributeParams_cons h hit rest,
      List.append_assoc]

theorem attributeLoop_params (h : Header) (st : ImageIOFormatSpec × List String) :
    (attributeLoop h st).1.extra_params =
      st.1.extra_params ++ attributeParams h h.attributes :=
  foldl_attributeStep_params h h.attributes st

theorem openEnvmap_params (r : Reader) (h : Header) (tiled : Bool) :
    ∃ B, (openEnvmap r h tiled).m_spec.extra_params = r.m_spec.extra_params ++ B ∧
      B.map Prod.fst ∈ [[], ["textureformat"], ["textureformat", "up"]] := by
  unfold openEnvmap
  split
  · rename_i v _
    exact ⟨[("textureformat", .str (if decide (v = ENVMAP_CUBE) = true
        then "CubeFace Environment" else "LatLong Environment")), ("up", .str "y")],
      by simp [ImageIOFormatSpec.add_parameter], by simp⟩
  · split
    · exact ⟨[("textureformat", .str "Plain Texture")],
        by simp [ImageIOFormatSpec.add_parameter], by simp⟩
    · exact ⟨[], by simp, by simp⟩

theorem openCompression_params (r : Reader) (h : Header) :
    ∃ C, (openCompression r h).m_spec.extra_params = r.m_spec.extra_params ++ C ∧
      C.map Prod.fst ∈ [[], ["compression"]] := by
  unfold openCompression
  split
  · split
    · rename_i comp _
      exact ⟨[("compression", .str comp)], by simp [ImageIOFormatSpec.add_parameter],
        by simp⟩
    · exact ⟨[], by simp, by simp⟩
  · exact ⟨[], by simp, by simp⟩

theorem query_channels_params (r r1 : Reader) (channels : List String)
    (h : query_channels r channels = some r1) :
    r1.m_spec.extra_params = r.m_spec.extra_params := by
  unfold query_channels at h
  dsimp only at h
  split_ifs at h
  cases h
  rfl

/-- The shape of a successful `open`: the channel resolver runs on a Reader
whose spec has no channel names and no parameters yet, and the spec returned
is what the level, envmap, compression and attribute steps make of its
result. -/
theorem open_shape (r : Reader) (file : ExrFile) (newspec : ImageIOFormatSpec)
    (r1 : Reader) (s1 : ImageIOFormatSpec)
    (h : open_ r file newspec = some (true, r1, s1)) :
    ∃ r0 r2, r0.m_spec.extra_params = [] ∧ r0.m_spec.channelnames = [] ∧
      query_channels r0 file.header.channels = some r2 ∧
      s1 = (attributeLoop file.header
        ((openCompression (openEnvmap (openLevels r2 file.tiled file) file.header file.tiled)
            file.header).m_spec,
         (openCompression (openEnvmap (openLevels r2 file.tiled file) file.header file.tiled)
            file.header).cerr)).1 ∧
      r1.m_spec = s1 := by
  unfold open_ at h
  by_cases hex : file.isOpenExrFile = true
  · simp only [hex, Bool.not_true, Bool.false_eq_true, if_false] at h
    cases hthrow : file.openException with
    | some e => simp [hthrow] at h
    | none =>
      simp only [hthrow] at h
      cases htiled : file.tiled with
      | true =>
        simp only [htiled, if_true, Option.isNone_some, Bool.and_false,
          Bool.false_eq_true, if_false] at h
        split at h
        · simp at h
        · rename_i r2 hq
          simp only [Option.some.injEq, Prod.mk.injEq, true_and] at h
          obtain ⟨h1, hs⟩ := h
          subst hs
          subst h1
          exact ⟨_, r2, rfl, rfl, hq, rfl, rfl⟩
      | false =>
        simp only [htiled, Bool.false_eq_true, if_false, Option.isNone_some, Bool.false_and,
          Bool.and_false] at h
        split at h
        · simp at h
        · rename_i r2 hq
          simp only [Option.some.injEq, Prod.mk.injEq, true_and] at h
          obtain ⟨h1, hs⟩ := h
          subst hs
          subst h1
          exact ⟨_, r2, rfl, rfl, hq, rfl, rfl⟩
  · simp [hex] at h

/-- The parameters of the spec a successful `open` returns: those of the spec
builder, with keys among `textureformat`, `up`, `compression`, followed by
those of the attribute loop. -/
theorem open_params (r : Reader) (file : ExrFile) (newspec : ImageIOFormatSpec)
    (r1 : Reader) (s1 : ImageIOFormatSpec)
    (h : open_ r file newspec = some (true, r1, s1)) :
    ∃ B, s1.extra_params = B ++ attributeParams file.header file.header.attributes ∧
      B.map Prod.fst ∈ [[], ["compression"], ["textureformat"],
        ["textureformat", "compression"], ["textureformat", "up"],
        ["textureformat", "up", "compression"]] := by
  obtain ⟨r0, r2, hp0, _, hq, hs, _⟩ := open_shape r file newspec r1 s1 h
  obtain ⟨B, hB, hBk⟩ := openEnvmap_params (openLevels r2 file.tiled file) file.header file.tiled
  obtain ⟨C, hC, hCk⟩ := openCompression_params
    (openEnvmap (openLevels r2 file.tiled file) file.header file.tiled) file.header
  refine ⟨B ++ C, ?_, ?_⟩
  · rw [hs, attributeLoop_params]
    dsimp only
    rw [hC, hB, openLevels_geometry, query_channels_params _ _ _ hq, hp0]
    simp
  · simp only [List.mem_cons, List.mem_singleton, List.not_mem_nil, or_false] at hBk hCk
    rw [List.map_append]
    rcases hBk with e | e | e <;> rcases hCk with e2 | e2 <;> rw [e, e2] <;> simp

theorem attributeParams_keys (h : Header) (l : List (String × Attribute)) :
    (attributeParams h l).map Prod.fst =
      l.filterMap (fun hit =>
        match attributeKey hit.1, attributeValue h hit.1 hit.2 with
        | some key, some _ => some key
        | _, _ => none) := by
  simp only [attributeParams, List.map_filterMap]
  congr 1
  funext hit
  cases attributeKey hit.1 <;> cases attributeValue h hit.1 hit.2 <;> rfl

theorem attributeParams_key_mem (h : Header) (l : List (String × Attribute)) (k : String)
    (hk : k ∈ (attributeParams h l).map Prod.fst) :
    ∃ hit ∈ l, attributeKey hit.1 = some k := by
  rw [attributeParams_keys] at hk
  obtain ⟨hit, hmem, he⟩ := List.mem_filterMap.1 hk
  refine ⟨hit, hmem, ?_⟩
  cases h1 : attributeKey hit.1 with
  | none => simp [h1] at he
  | some key =>
    cases h2 : attributeValue h hit.1 hit.2 with
    | none => simp [h1, h2] at he
    | some v =>
      simp only [h1, h2, Option.some.injEq] at he
      rw [he]

theorem attributeParams_nodup (h : Header) (l : List (String × Attribute))
    (hnd : (l.map Prod.fst).Nodup) : ((attributeParams h l).map Prod.fst).Nodup := by
  rw [attributeParams_keys]
  apply nodup_filterMap_of_inj _ _ hnd.of_map
  intro a ha b hb k ea eb
  have ka : attributeKey a.1 = some k := by
    cases h1 : attributeKey a.1 with
    | none => simp [h1] at ea
    | some key =>
      cases h2 : attributeValue h a.1 a.2 with
      | none => simp [h1, h2] at ea
      | some v =>
        simp only [h1, h2, Option.some.injEq] at ea
        rw [ea]
  have kb : attributeKey b.1 = some k := by
    cases h1 : attributeKey b.1 with
    | none => simp [h1] at eb
    | some key =>
      cases h2 : attributeValue h b.1 b.2 with
      | none => simp [h1, h2] at eb
      | some v =>
        simp only [h1, h2, Option.some.injEq] at eb
        rw [eb]
  exact List.inj_on_of_nodup_map hnd ha hb (attributeKey_inj a.1 b.1 k ka kb)

/-- C20: two distinct attribute names that are not skipped never get the same
metadata key, no such key is `textureformat`, `up` or `compression`, and so,
for a header with pairwise distinct attribute names, the keys of the
parameters in the spec a successful `open` returns are pairwise distinct. -/
theorem C20_keys_distinct (r : Reader) (file : ExrFile) (newspec : ImageIOFormatSpec)
    (r1 : Reader) (s1 : ImageIOFormatSpec)
    (hopen : open_ r file newspec = some (true, r1, s1))
    (hnd : (file.header.attributes.map Prod.fst).Nodup) :
    (∀ n1 n2 k, attributeKey n1 = some k → attributeKey n2 = some k → n1 = n2) ∧
    (∀ n k, attributeKey n = some k →
      k ≠ "textureformat" ∧ k ≠ "up" ∧ k ≠ "compression") ∧
    (s1.extra_params.map Prod.fst).Nodup := by
  refine ⟨attributeKey_inj, ?_, ?_⟩
  · intro n k hk
    have := attributeKey_not_builder n k hk
    simp only [List.mem_cons, List.mem_singleton, List.not_mem_nil, or_false, not_or] at this
    exact this
  · obtain ⟨B, hB, hBk⟩ := open_params r file newspec r1 s1 hopen
    rw [hB, List.map_append, List.nodup_append]
    refine ⟨?_, attributeParams_nodup _ _ hnd, ?_⟩
    · simp only [List.mem_cons, List.mem_singleton, List.not_mem_nil, or_false] at hBk
      rcases hBk with e | e | e | e | e | e <;> rw [e] <;> decide
    · intro k hk1 hk2
      obtain ⟨hit, _, hkey⟩ := attributeParams_key_mem _ _ k hk2
      apply attributeKey_not_builder hit.1 k hkey
      simp only [List.mem_cons, List.mem_singleton, List.not_mem_nil, or_false] at hBk
      rcases hBk with e | e | e | e | e | e <;> rw [e] at hk1 <;> revert hk1 <;> simp <;>
        tauto

/-- C20 at the open of the file with the attributes `foo`, `owner`,
`wrapmodes`: the keys are `openexr_foo`, `copyright`, `openexr_wrapmodes`. -/
theorem C20_keys_distinct_witness :
    (Example.fileAttrs.header.attributes.map Prod.fst).Nodup ∧
    (∃ r1 s1, open_ Example.fresh Example.fileAttrs ImageIOFormatSpec.default =
        some (true, r1, s1) ∧
      s1.extra_params.map Prod.fst = ["openexr_foo", "copyright", "openexr_wrapmodes"] ∧
      (s1.extra_params.map Prod.fst).Nodup) :=
  ⟨by decide, _, _, rfl, rfl,
    (C20_keys_distinct Example.fresh Example.fileAttrs ImageIOFormatSpec.default _ _ rfl
      (by decide)).2.2⟩

/-- No call of `open` aborts: the `ASSERT` of `query_channels` holds there,
because `open` resets `m_spec` first. -/
theorem open_never_aborts (r : Reader) (file : ExrFile) (newspec : ImageIOFormatSpec) :
    ∃ res, open_ r file newspec = some res := by
  unfold open_
  by_cases hex : file.isOpenExrFile = true
  · simp only [hex, Bool.not_true, Bool.false_eq_true, if_false]
    cases hthrow : file.openException with
    | some e => exact ⟨_, rfl⟩
    | none =>
      cases htiled : file.tiled with
      | true =>
        simp only [if_true, Option.isNone_some, Bool.and_false, Bool.false_eq_true, if_false]
        rw [query_channels_eq _ _ rfl]
        exact ⟨_, rfl⟩
      | false =>
        simp only [Bool.false_eq_true, if_false, Option.isNone_some, Bool.false_and]
        rw [query_channels_eq _ _ rfl]
        exact ⟨_, rfl⟩
  · simp only [hex, Bool.not_false, if_true]
    exact ⟨_, rfl⟩

end OpenEXR
